import Mathlib

/-!
Verification of the hierarchical spline space module (pyiga, `hierarchical.py`).

Shallow embedding conventions:
* a cell or a basis function of a `D`-dimensional tensor-product mesh is a
  `List ℕ` of length `D` (the per-axis span or dof indices, matching the
  Python tuples);
* Python `set` becomes `Finset (List ℕ)`; Python dicts mapping levels to sets
  become functions `ℕ → Finset (List ℕ)` (missing key = `∅`) together with an
  upper bound for the keys where the code uses `max(marked.keys())`;
* the per-level tensor-product meshes, their function supports and the 1D
  prolongation matrices come from the external `bspline` module, which is not
  part of the analysed sources; they are modelled abstractly by `MeshData`
  (data) and `MeshLaws` (the properties the spec ascribes to them);
* imperative loops become `List.foldl` over `List.range`, fuel-based recursion
  replaces Python `while`-loops whose termination is an invariant of the data.
-/

/-! ## Cell genealogy (HMesh.cell_children / cell_parent and friends) -/

/-- Children of one cell: the per-axis product of `range(2*ci, 2*(ci+1))`,
as in `HMesh.cell_children`. -/
def cellChildren : List ℕ → List (List ℕ)
  | [] => [[]]
  | ci :: rest => ([2 * ci, 2 * ci + 1]).flatMap (fun di => (cellChildren rest).map (di :: ·))

/-- Parent of a cell: floor-division of every axis index by 2
(`HMesh.cell_parent`, per cell). -/
def cellParent (c : List ℕ) : List ℕ := c.map (· / 2)

/-- Iterated parent, `k` levels up. -/
def iterParent (k : ℕ) (c : List ℕ) : List ℕ := Nat.rec c (fun _ ih => cellParent ih) k

theorem iterParent_zero (c : List ℕ) : iterParent 0 c = c := rfl

theorem iterParent_succ (k : ℕ) (c : List ℕ) :
    iterParent (k + 1) c = cellParent (iterParent k c) := rfl

theorem iterParent_add (k j : ℕ) (c : List ℕ) :
    iterParent (k + j) c = iterParent j (iterParent k c) := by
  induction j with
  | zero => rfl
  | succ n ih =>
      rw [show k + (n + 1) = (k + n) + 1 from rfl, iterParent_succ, ih, iterParent_succ]

theorem iterParent_succ_inner (k : ℕ) (c : List ℕ) :
    iterParent (k + 1) c = iterParent k (cellParent c) := by
  induction k with
  | zero => rfl
  | succ n ih => rw [iterParent_succ, ih, ← iterParent_succ]

theorem mem_cellChildren_iff {d c : List ℕ} : d ∈ cellChildren c ↔ cellParent d = c := by
  induction c generalizing d with
  | nil =>
      constructor
      · intro h
        simp only [cellChildren, List.mem_singleton] at h
        subst h; rfl
      · intro h
        have hd : d = [] := by
          cases d with
          | nil => rfl
          | cons x xs => exact absurd h (by simp [cellParent])
        subst hd; simp [cellChildren]
  | cons ci rest ih =>
      cases d with
      | nil =>
          constructor
          · intro h
            simp only [cellChildren, List.mem_flatMap, List.mem_map] at h
            obtain ⟨a, -, r, -, h⟩ := h
            exact absurd h (by simp)
          · intro h
            exact absurd h (by simp [cellParent])
      | cons x xs =>
          simp only [cellChildren, List.mem_flatMap, List.mem_map, cellParent, List.map_cons,
            List.cons.injEq, List.mem_cons, List.not_mem_nil, or_false]
          constructor
          · rintro ⟨a, ha, r, hr, h1, h2⟩
            subst h1; subst h2
            refine ⟨?_, ih.mp hr⟩
            rcases ha with h | h <;> omega
          · rintro ⟨h1, h2⟩
            exact ⟨x, by omega, xs, ih.mpr h2, rfl, rfl⟩

theorem cellParent_of_mem_cellChildren {d c : List ℕ} (h : d ∈ cellChildren c) :
    cellParent d = c := mem_cellChildren_iff.mp h

theorem cellChildren_ne_nil (c : List ℕ) : cellChildren c ≠ [] := by
  induction c with
  | nil => simp [cellChildren]
  | cons ci rest ih =>
      simp only [cellChildren, ne_eq, List.flatMap_eq_nil_iff, not_forall]
      refine ⟨2 * ci, by simp, ?_⟩
      simpa using ih

theorem cellChildren_length (c : List ℕ) : (cellChildren c).length = 2 ^ c.length := by
  induction c with
  | nil => simp [cellChildren]
  | cons ci rest ih =>
      simp only [cellChildren, List.length_flatMap, List.map_cons, List.map_nil,
        Function.comp, List.length_map, ih, List.sum_cons, List.sum_nil, List.length_cons,
        Nat.pow_succ]
      ring

/-- Children of one cell as a `Finset`. -/
def childrenF (c : List ℕ) : Finset (List ℕ) := (cellChildren c).toFinset

/-- Children of a set of cells (`HMesh.cell_children` on a collection,
up to the set/list distinction). -/
def childrenSetF (s : Finset (List ℕ)) : Finset (List ℕ) := s.biUnion childrenF

theorem mem_childrenF {d c : List ℕ} : d ∈ childrenF c ↔ cellParent d = c := by
  simp [childrenF, mem_cellChildren_iff]

theorem mem_childrenSetF {d : List ℕ} {s : Finset (List ℕ)} :
    d ∈ childrenSetF s ↔ cellParent d ∈ s := by
  simp only [childrenSetF, Finset.mem_biUnion, mem_childrenF]
  constructor
  · rintro ⟨c, hc, h⟩; exact h ▸ hc
  · intro h; exact ⟨cellParent d, h, rfl⟩

/-- Iterated children (the level-`k` descendants of a cell); used to express
the physical region a cell covers. -/
def iterChildrenF (k : ℕ) (c : List ℕ) : Finset (List ℕ) :=
  Nat.rec {c} (fun _ ih => childrenSetF ih) k

theorem mem_iterChildrenF {k : ℕ} {d c : List ℕ} :
    d ∈ iterChildrenF k c ↔ iterParent k d = c := by
  induction k generalizing d c with
  | zero => simp [iterChildrenF, iterParent_zero]
  | succ n ih =>
      show d ∈ childrenSetF (iterChildrenF n c) ↔ _
      rw [mem_childrenSetF, ih, iterParent_succ_inner]

theorem iterChildrenF_nonempty (k : ℕ) (c : List ℕ) : (iterChildrenF k c).Nonempty := by
  induction k with
  | zero => exact ⟨c, by simp [iterChildrenF]⟩
  | succ n ih =>
      obtain ⟨d, hd⟩ := ih
      have hne := cellChildren_ne_nil d
      obtain ⟨e, he⟩ := List.exists_mem_of_ne_nil _ hne
      refine ⟨e, ?_⟩
      show e ∈ childrenSetF (iterChildrenF n c)
      rw [mem_childrenSetF, cellParent_of_mem_cellChildren he]
      exact hd

/-! ## Sorting with duplicate removal (private helpers `_make_unique`, `sort`) -/

/-- Boolean lexicographic comparison on index tuples (the order Python uses
when sorting lists of tuples). -/
def lexLe : List ℕ → List ℕ → Bool
  | [], _ => true
  | _ :: _, [] => false
  | a :: as, b :: bs => if a < b then true else if b < a then false else lexLe as bs

/-- Scanning helper for `makeUnique`: `last` is the most recently kept entry. -/
def makeUniqueGo (last : List ℕ) : List (List ℕ) → List (List ℕ)
  | [] => []
  | x :: xs => if x = last then makeUniqueGo last xs else x :: makeUniqueGo x xs

/-- Removal of consecutive duplicates, as in the module helper `_make_unique`. -/
def makeUnique : List (List ℕ) → List (List ℕ)
  | [] => []
  | x :: xs => x :: makeUniqueGo x xs

theorem mem_makeUniqueGo {a last : List ℕ} {l : List (List ℕ)} :
    a ∈ last :: makeUniqueGo last l ↔ a ∈ last :: l := by
  induction l generalizing last with
  | nil => simp [makeUniqueGo]
  | cons x xs ih =>
      by_cases h : x = last
      · subst h
        rw [makeUniqueGo, if_pos rfl]
        have ih2 := @ih x
        simp only [List.mem_cons] at ih2 ⊢
        tauto
      · rw [makeUniqueGo, if_neg h]
        have ih2 := @ih x
        simp only [List.mem_cons] at ih2 ⊢
        tauto

theorem mem_makeUnique {a : List ℕ} {l : List (List ℕ)} : a ∈ makeUnique l ↔ a ∈ l := by
  cases l with
  | nil => simp [makeUnique]
  | cons x xs => exact mem_makeUniqueGo

/-- Sorted duplicate-free copy of a list of index tuples, as produced by
Python `list.sort()` followed by `_make_unique`. -/
def sortedUnique (l : List (List ℕ)) : List (List ℕ) := makeUnique (l.mergeSort lexLe)

theorem mem_sortedUnique {a : List ℕ} {l : List (List ℕ)} :
    a ∈ sortedUnique l ↔ a ∈ l := by
  rw [sortedUnique, mem_makeUnique, List.mem_mergeSort]

/-! ## Level-checked HMesh queries (the assert preconditions)

`numMeshes` stands for `len(self.meshes)`.  The Python asserts translate to
explicit `Except.error` results carrying the assert message. -/

/-- Level-checked `HMesh.cell_children`: requires `0 <= lv < len(meshes) - 1`. -/
def cellChildrenChk (numMeshes lv : ℕ) (cells : List (List ℕ)) :
    Except String (List (List ℕ)) :=
  if lv + 1 < numMeshes then .ok (cells.flatMap cellChildren) else .error "Invalid level"

/-- Level-checked `HMesh.cell_parent`: requires `1 <= lv < len(meshes)`;
sorts the parents and removes duplicates. -/
def cellParentChk (numMeshes lv : ℕ) (cells : List (List ℕ)) :
    Except String (List (List ℕ)) :=
  if 1 ≤ lv ∧ lv < numMeshes then .ok (sortedUnique (cells.map cellParent))
  else .error "Invalid level"

/-- Resolution of the optional `targetlv` argument in `HMesh.cell_babys` and
`HMesh.cell_grandparent`: the source tests `if not targetlv`, which treats an
explicit `0` exactly like an absent argument and replaces it by the default. -/
def resolveTarget (targetlv : Option ℕ) (dflt : ℕ) : ℕ :=
  match targetlv with
  | none => dflt
  | some 0 => dflt
  | some (k + 1) => k + 1

/-- Recursion core of `HMesh.cell_babys`; the fuel bounds the recursion depth
(`targetlv - lv` in the source, where each step re-checks both asserts). -/
def cellBabysGo (numMeshes : ℕ) : ℕ → ℕ → ℕ → List (List ℕ) → Except String (List (List ℕ))
  | 0, _, _, _ => .error "out of fuel"
  | fuel + 1, lv, targetlv, cells =>
      if ¬ (lv + 1 < numMeshes) then .error "Invalid level"
      else if ¬ (lv < targetlv ∧ targetlv < numMeshes) then .error "Invalid target level"
      else if targetlv - lv = 1 then .ok (cells.flatMap cellChildren)
      else cellBabysGo numMeshes fuel (lv + 1) targetlv (cells.flatMap cellChildren)

/-- `HMesh.cell_babys(lv, cells, targetlv)` including the faulty default
handling of `targetlv` (`if not targetlv` replaces an explicit `0` by the
default `len(meshes) - 1` before the asserts run). -/
def cellBabys (numMeshes lv : ℕ) (cells : List (List ℕ)) (targetlv : Option ℕ) :
    Except String (List (List ℕ)) :=
  let t := resolveTarget targetlv (numMeshes - 1)
  cellBabysGo numMeshes (t + 1) lv t cells

/-- Recursion core of `HMesh.cell_grandparent` (fuel bounds depth `lv - targetlv`). -/
def cellGrandparentGo (numMeshes : ℕ) :
    ℕ → ℕ → ℕ → List (List ℕ) → Except String (List (List ℕ))
  | 0, _, _, _ => .error "out of fuel"
  | fuel + 1, lv, targetlv, cells =>
      if ¬ (1 ≤ lv ∧ lv < numMeshes) then .error "Invalid level"
      else if ¬ (targetlv < lv) then .error "Invalid target level"
      else if lv - targetlv = 1 then .ok (sortedUnique (cells.map cellParent))
      else cellGrandparentGo numMeshes fuel (lv - 1) targetlv
        (sortedUnique (cells.map cellParent))

/-- `HMesh.cell_grandparent(lv, cells, targetlv)` with the same
`if not targetlv` default handling (default `0`, harmless here). -/
def cellGrandparent (numMeshes lv : ℕ) (cells : List (List ℕ)) (targetlv : Option ℕ) :
    Except String (List (List ℕ)) :=
  let t := resolveTarget targetlv 0
  cellGrandparentGo numMeshes (lv + 1) lv t cells

/-! ## The hierarchical cell state machine (HMesh)

State: number of levels plus per-level active/deactivated cell sets
(`∅` beyond the allocated levels).  `hmRefine` is `HMesh.refine`:
`ensure_levels(max(marked.keys()) + 2)` followed by the per-level
deactivate/add-children loop.  A Python `marked` dict is a function
`ℕ → Finset Cell` (absent key = `∅`) plus the maximal key `maxlv`. -/

/-- Cell and function multi-indices are lists of per-axis indices. -/
abbrev Cell := List ℕ

/-- Per-level state of a hierarchical mesh. -/
structure HMState where
  numLevels : ℕ
  active : ℕ → Finset Cell
  deactivated : ℕ → Finset Cell

/-- Initial hierarchical mesh: one level whose active set is every cell of
the coarse tensor-product mesh. -/
def hmInit (cells0 : Finset Cell) : HMState :=
  ⟨1, fun l => if l = 0 then cells0 else ∅, fun _ => ∅⟩

/-- Body of the level loop in `HMesh.refine`: deactivate the marked cells of
level `lv` and add their children to level `lv+1`. -/
def hmStep (marked : ℕ → Finset Cell)
    (st : (ℕ → Finset Cell) × (ℕ → Finset Cell)) (lv : ℕ) :
    (ℕ → Finset Cell) × (ℕ → Finset Cell) :=
  let cells := marked lv
  let a1 := Function.update st.1 lv (st.1 lv \ cells)
  let d1 := Function.update st.2 lv (st.2 lv ∪ cells)
  let a2 := Function.update a1 (lv + 1) (a1 (lv + 1) ∪ childrenSetF cells)
  (a2, d1)

/-- `HMesh.refine(marked)`. -/
def hmRefine (s : HMState) (marked : ℕ → Finset Cell) (maxlv : ℕ) : HMState :=
  let L := max s.numLevels (maxlv + 2)
  let st := (List.range (L - 1)).foldl (hmStep marked) (s.active, s.deactivated)
  ⟨L, st.1, st.2⟩

/-- Closed form of the active sets after one `hmRefine` call. -/
def hmRefineActive (a marked : ℕ → Finset Cell) : ℕ → Finset Cell
  | 0 => a 0 \ marked 0
  | l + 1 => (a (l + 1) ∪ childrenSetF (marked l)) \ marked (l + 1)

theorem childrenSetF_empty : childrenSetF ∅ = ∅ := rfl

theorem childrenSetF_mono {s t : Finset Cell} (h : s ⊆ t) : childrenSetF s ⊆ childrenSetF t := by
  intro x hx
  rw [mem_childrenSetF] at hx ⊢
  exact h hx

theorem hmFold_spec (marked : ℕ → Finset Cell) (a d : ℕ → Finset Cell) (m : ℕ) :
    (∀ l, l < m →
      ((List.range m).foldl (hmStep marked) (a, d)).1 l = hmRefineActive a marked l) ∧
    (∀ l, m < l → ((List.range m).foldl (hmStep marked) (a, d)).1 l = a l) ∧
    (0 < m → ((List.range m).foldl (hmStep marked) (a, d)).1 m
        = a m ∪ childrenSetF (marked (m - 1))) ∧
    (m = 0 → ((List.range m).foldl (hmStep marked) (a, d)).1 0 = a 0) ∧
    (∀ l, l < m → ((List.range m).foldl (hmStep marked) (a, d)).2 l = d l ∪ marked l) ∧
    (∀ l, m ≤ l → ((List.range m).foldl (hmStep marked) (a, d)).2 l = d l) := by
  induction m with
  | zero =>
      refine ⟨fun l hl => absurd hl (by omega), fun l _ => rfl, fun h => absurd h (by omega),
        fun _ => rfl, fun l hl => absurd hl (by omega), fun l _ => rfl⟩
  | succ m ih =>
      obtain ⟨ihAlt, ihAgt, ihAeq, ihA0, ihDlt, ihDge⟩ := ih
      have hfold : (List.range (m + 1)).foldl (hmStep marked) (a, d)
          = hmStep marked ((List.range m).foldl (hmStep marked) (a, d)) m := by
        rw [List.range_succ, List.foldl_append, List.foldl_cons, List.foldl_nil]
      set st := (List.range m).foldl (hmStep marked) (a, d) with hst
      have hstm : st.1 m = (if 0 < m then a m ∪ childrenSetF (marked (m - 1)) else a m) := by
        by_cases h : 0 < m
        · rw [if_pos h]; exact ihAeq h
        · rw [if_neg h]
          have hm0 : m = 0 := by omega
          subst hm0; exact ihA0 rfl
      refine ⟨?_, ?_, ?_, ?_, ?_, ?_⟩
      · intro l hl
        rw [hfold]
        show (Function.update (Function.update st.1 m (st.1 m \ marked m)) (m + 1)
          (Function.update st.1 m (st.1 m \ marked m) (m + 1)
            ∪ childrenSetF (marked m))) l = _
        rcases Nat.lt_succ_iff_lt_or_eq.mp hl with h | h
        · rw [Function.update_noteq (by omega), Function.update_noteq (by omega)]
          exact ihAlt l h
        · subst h
          rw [Function.update_noteq (by omega), Function.update_same, hstm]
          by_cases h0 : 0 < l
          · rw [if_pos h0]
            obtain ⟨k, rfl⟩ : ∃ k, l = k + 1 := ⟨l - 1, by omega⟩
            show _ = hmRefineActive a marked (k + 1)
            rw [hmRefineActive]
            congr 2
          · have : l = 0 := by omega
            subst this
            rw [if_neg h0]
            rfl
      · intro l hl
        rw [hfold]
        show (Function.update (Function.update st.1 m (st.1 m \ marked m)) (m + 1)
          (Function.update st.1 m (st.1 m \ marked m) (m + 1)
            ∪ childrenSetF (marked m))) l = _
        rw [Function.update_noteq (by omega), Function.update_noteq (by omega)]
        exact ihAgt l (by omega)
      · intro _
        rw [hfold]
        show (Function.update (Function.update st.1 m (st.1 m \ marked m)) (m + 1)
          (Function.update st.1 m (st.1 m \ marked m) (m + 1)
            ∪ childrenSetF (marked m))) (m + 1) = _
        rw [Function.update_same, Function.update_noteq (by omega)]
        have : st.1 (m + 1) = a (m + 1) := ihAgt (m + 1) (by omega)
        rw [this]
        congr 2
      · intro h
        exact absurd h (by omega)
      · intro l hl
        rw [hfold]
        show (Function.update st.2 m (st.2 m ∪ marked m)) l = _
        rcases Nat.lt_succ_iff_lt_or_eq.mp hl with h | h
        · rw [Function.update_noteq (by omega)]
          exact ihDlt l h
        · subst h
          rw [Function.update_same, ihDge l (by omega)]
      · intro l hl
        rw [hfold]
        show (Function.update st.2 m (st.2 m ∪ marked m)) l = _
        rw [Function.update_noteq (by omega)]
        exact ihDge l (by omega)

theorem hmRefine_numLevels (s : HMState) (marked : ℕ → Finset Cell) (maxlv : ℕ) :
    (hmRefine s marked maxlv).numLevels = max s.numLevels (maxlv + 2) := rfl

theorem hmRefine_active (s : HMState) (marked : ℕ → Finset Cell) (maxlv : ℕ)
    (hbd : ∀ l, maxlv < l → marked l = ∅) (l : ℕ) :
    (hmRefine s marked maxlv).active l = hmRefineActive s.active marked l := by
  have h2 : maxlv + 2 ≤ max s.numLevels (maxlv + 2) := le_max_right _ _
  set L := max s.numLevels (maxlv + 2) with hL
  have spec := hmFold_spec marked s.active s.deactivated (L - 1)
  show ((List.range (L - 1)).foldl (hmStep marked) (s.active, s.deactivated)).1 l = _
  rcases lt_trichotomy l (L - 1) with h | h | h
  · exact spec.1 l h
  · subst h
    rw [spec.2.2.1 (by omega)]
    obtain ⟨k, hk⟩ : ∃ k, L - 1 = k + 1 := ⟨L - 2, by omega⟩
    rw [hk]
    show _ = hmRefineActive s.active marked (k + 1)
    rw [hmRefineActive]
    have hm : marked (k + 1) = ∅ := hbd _ (by omega)
    rw [hm, Finset.sdiff_empty]
    congr 2
  · rw [spec.2.1 l h]
    obtain ⟨k, rfl⟩ : ∃ k, l = k + 1 := ⟨l - 1, by omega⟩
    rw [hmRefineActive]
    have h1 : marked k = ∅ := hbd _ (by omega)
    have h2 : marked (k + 1) = ∅ := hbd _ (by omega)
    rw [h1, h2, childrenSetF_empty, Finset.union_empty, Finset.sdiff_empty]

theorem hmRefine_deactivated (s : HMState) (marked : ℕ → Finset Cell) (maxlv : ℕ)
    (hbd : ∀ l, maxlv < l → marked l = ∅) (l : ℕ) :
    (hmRefine s marked maxlv).deactivated l = s.deactivated l ∪ marked l := by
  have h2 : maxlv + 2 ≤ max s.numLevels (maxlv + 2) := le_max_right _ _
  set L := max s.numLevels (maxlv + 2) with hL
  have spec := hmFold_spec marked s.active s.deactivated (L - 1)
  show ((List.range (L - 1)).foldl (hmStep marked) (s.active, s.deactivated)).2 l = _
  rcases lt_or_ge l (L - 1) with h | h
  · exact spec.2.2.2.2.1 l h
  · rw [spec.2.2.2.2.2 l h]
    have : marked l = ∅ := hbd _ (by omega)
    rw [this, Finset.union_empty]

/-! ## HMesh invariants under refinement (claim C1) -/

/-- Cells of the level-`l` tensor-product mesh, derived from the coarse cells
by `l`-fold dyadic refinement. -/
def allCellsFrom (cells0 : Finset Cell) (l : ℕ) : Finset Cell :=
  Nat.rec cells0 (fun _ ih => childrenSetF ih) l

theorem allCellsFrom_succ (cells0 : Finset Cell) (l : ℕ) :
    allCellsFrom cells0 (l + 1) = childrenSetF (allCellsFrom cells0 l) := rfl

/-- Invariants of the hierarchical cell state maintained by `HMesh.refine`.
`disj` and `childPresent` are the claimed partition facts; the remaining
fields are the auxiliary facts needed to propagate them. -/
structure HMInv (cells0 : Finset Cell) (s : HMState) : Prop where
  disj : ∀ l, s.active l ∩ s.deactivated l = ∅
  childPresent : ∀ l, ∀ c ∈ s.deactivated l, ∀ e ∈ cellChildren c,
      e ∈ s.active (l + 1) ∪ s.deactivated (l + 1)
  parentDeact : ∀ l c, c ∈ s.active (l + 1) ∪ s.deactivated (l + 1) →
      cellParent c ∈ s.deactivated l
  beyond : ∀ l, s.numLevels ≤ l → s.active l = ∅ ∧ s.deactivated l = ∅
  levelZero : s.active 0 ∪ s.deactivated 0 = cells0
  inCells : ∀ l, s.active l ∪ s.deactivated l ⊆ allCellsFrom cells0 l
  pos : 1 ≤ s.numLevels

theorem hmInit_inv (cells0 : Finset Cell) : HMInv cells0 (hmInit cells0) := by
  refine ⟨?_, ?_, ?_, ?_, ?_, ?_, le_refl 1⟩
  · intro l
    by_cases h : l = 0 <;> simp [hmInit, h]
  · intro l c hc
    simp [hmInit] at hc
  · intro l c hc
    simp [hmInit] at hc
  · intro l hl
    have : l ≠ 0 := by simp [hmInit] at hl ⊢; omega
    simp [hmInit, this]
  · simp [hmInit]
  · intro l
    by_cases h : l = 0
    · subst h; simp [hmInit, allCellsFrom]
    · simp [hmInit, h]

theorem hmRefine_inv {cells0 : Finset Cell} {s : HMState} (hInv : HMInv cells0 s)
    {marked : ℕ → Finset Cell} {maxlv : ℕ}
    (hsub : ∀ l, marked l ⊆ s.active l) (hbd : ∀ l, maxlv < l → marked l = ∅) :
    HMInv cells0 (hmRefine s marked maxlv) := by
  have hA := hmRefine_active s marked maxlv hbd
  have hD := hmRefine_deactivated s marked maxlv hbd
  have hN := hmRefine_numLevels s marked maxlv
  -- membership description of the new active sets
  have hAmem : ∀ l c, c ∈ (hmRefine s marked maxlv).active l ↔
      ((c ∈ s.active l ∨ (0 < l ∧ cellParent c ∈ marked (l - 1))) ∧ c ∉ marked l) := by
    intro l c
    rw [hA l]
    cases l with
    | zero => simp [hmRefineActive, Finset.mem_sdiff]
    | succ k =>
        simp only [hmRefineActive, Finset.mem_sdiff, Finset.mem_union, mem_childrenSetF]
        constructor
        · rintro ⟨h1 | h1, h2⟩
          · exact ⟨Or.inl h1, h2⟩
          · exact ⟨Or.inr ⟨by omega, by simpa using h1⟩, h2⟩
        · rintro ⟨h1 | h1, h2⟩
          · exact ⟨Or.inl h1, h2⟩
          · exact ⟨Or.inr (by simpa using h1.2), h2⟩
  have hDmem : ∀ l c, c ∈ (hmRefine s marked maxlv).deactivated l ↔
      (c ∈ s.deactivated l ∨ c ∈ marked l) := by
    intro l c
    rw [hD l]
    simp [Finset.mem_union]
  refine ⟨?_, ?_, ?_, ?_, ?_, ?_, ?_⟩
  · -- disjointness
    intro l
    rw [Finset.eq_empty_iff_forall_not_mem]
    intro c hc
    rw [Finset.mem_inter, hAmem, hDmem] at hc
    obtain ⟨⟨h1, h2⟩, h3⟩ := hc
    rcases h3 with h3 | h3
    · rcases h1 with h1 | h1
      · have := hInv.disj l
        rw [Finset.eq_empty_iff_forall_not_mem] at this
        exact this c (Finset.mem_inter.mpr ⟨h1, h3⟩)
      · -- a fresh child cell cannot be already deactivated
        obtain ⟨hl, hpar⟩ := h1
        obtain ⟨k, rfl⟩ : ∃ k, l = k + 1 := ⟨l - 1, by omega⟩
        have hrep : c ∈ s.active (k + 1) ∪ s.deactivated (k + 1) := Finset.mem_union_right _ h3
        have hpd := hInv.parentDeact k c hrep
        have hpa : cellParent c ∈ s.active k := hsub k (by simpa using hpar)
        have := hInv.disj k
        rw [Finset.eq_empty_iff_forall_not_mem] at this
        exact this _ (Finset.mem_inter.mpr ⟨hpa, hpd⟩)
    · exact h2 h3
  · -- children of deactivated cells are represented on the next level
    intro l c hc e he
    rw [hDmem] at hc
    rw [Finset.mem_union, hAmem, hDmem]
    have hpe : cellParent e = c := cellParent_of_mem_cellChildren he
    rcases hc with hc | hc
    · -- previously deactivated: use the old invariant
      have hold := hInv.childPresent l c hc e he
      rw [Finset.mem_union] at hold
      rcases hold with h | h
      · by_cases hm : e ∈ marked (l + 1)
        · exact Or.inr (Or.inr hm)
        · exact Or.inl ⟨Or.inl h, hm⟩
      · exact Or.inr (Or.inl h)
    · -- freshly marked: its children are fresh cells
      by_cases hm : e ∈ marked (l + 1)
      · exact Or.inr (Or.inr hm)
      · exact Or.inl ⟨Or.inr ⟨by omega, by simpa [hpe] using hc⟩, hm⟩
  · -- parents of represented cells are deactivated
    intro l c hc
    rw [Finset.mem_union, hAmem, hDmem] at hc
    rw [hDmem]
    rcases hc with ⟨h1, -⟩ | h1
    · rcases h1 with h1 | h1
      · exact Or.inl (hInv.parentDeact l c (Finset.mem_union_left _ h1))
      · exact Or.inr (by simpa using h1.2)
    · rcases h1 with h1 | h1
      · exact Or.inl (hInv.parentDeact l c (Finset.mem_union_right _ h1))
      · have : c ∈ s.active (l + 1) := hsub (l + 1) h1
        exact Or.inl (hInv.parentDeact l c (Finset.mem_union_left _ this))
  · -- nothing beyond the new level count
    intro l hl
    rw [hN] at hl
    have h1 : s.numLevels ≤ l := le_trans (le_max_left _ _) hl
    have h2 : maxlv + 2 ≤ l := le_trans (le_max_right _ _) hl
    constructor
    · rw [Finset.eq_empty_iff_forall_not_mem]
      intro c hc
      rw [hAmem] at hc
      obtain ⟨h3, -⟩ := hc
      rcases h3 with h3 | h3
      · rw [(hInv.beyond l h1).1] at h3; exact absurd h3 (Finset.not_mem_empty c)
      · have : marked (l - 1) = ∅ := hbd _ (by omega)
        rw [this] at h3
        exact absurd h3.2 (Finset.not_mem_empty _)
    · rw [Finset.eq_empty_iff_forall_not_mem]
      intro c hc
      rw [hDmem] at hc
      rcases hc with h3 | h3
      · rw [(hInv.beyond l h1).2] at h3; exact absurd h3 (Finset.not_mem_empty c)
      · have : marked l = ∅ := hbd _ (by omega)
        rw [this] at h3
        exact absurd h3 (Finset.not_mem_empty _)
  · -- level 0 still carries all coarse cells
    rw [Finset.ext_iff]
    intro c
    rw [Finset.mem_union, hAmem, hDmem]
    have h0 := hInv.levelZero
    rw [Finset.ext_iff] at h0
    have h0c := h0 c
    rw [Finset.mem_union] at h0c
    constructor
    · rintro (⟨h1, -⟩ | h1)
      · rcases h1 with h1 | h1
        · exact h0c.mp (Or.inl h1)
        · omega
      · rcases h1 with h1 | h1
        · exact h0c.mp (Or.inr h1)
        · exact h0c.mp (Or.inl (hsub 0 h1))
    · intro h1
      rcases h0c.mpr h1 with h2 | h2
      · by_cases hm : c ∈ marked 0
        · exact Or.inr (Or.inr hm)
        · exact Or.inl ⟨Or.inl h2, hm⟩
      · exact Or.inr (Or.inl h2)
  · -- represented cells are genuine mesh cells
    intro l c hc
    rw [Finset.mem_union, hAmem, hDmem] at hc
    have base : ∀ e, e ∈ s.active l ∪ s.deactivated l → e ∈ allCellsFrom cells0 l :=
      fun e he => hInv.inCells l he
    rcases hc with ⟨h1, -⟩ | h1
    · rcases h1 with h1 | h1
      · exact base c (Finset.mem_union_left _ h1)
      · obtain ⟨hl, hpar⟩ := h1
        obtain ⟨k, rfl⟩ : ∃ k, l = k + 1 := ⟨l - 1, by omega⟩
        rw [allCellsFrom_succ, mem_childrenSetF]
        have hpk : cellParent c ∈ s.active k := hsub k (by simpa using hpar)
        exact hInv.inCells k (Finset.mem_union_left _ hpk)
    · rcases h1 with h1 | h1
      · exact base c (Finset.mem_union_right _ h1)
      · exact base c (Finset.mem_union_left _ (hsub l h1))
  · rw [hN]
    exact le_trans (by omega) (le_max_right s.numLevels (maxlv + 2))

/-- Sequences of `HMesh.refine` calls in which every marked cell is active on
its level at the time of the call (and the marked dictionary has maximal key
`maxlv`). -/
inductive ReachableHM (cells0 : Finset Cell) : HMState → Prop where
  | init : ReachableHM cells0 (hmInit cells0)
  | step (s : HMState) (marked : ℕ → Finset Cell) (maxlv : ℕ) :
      ReachableHM cells0 s →
      (∀ l, marked l ⊆ s.active l) →
      (∀ l, maxlv < l → marked l = ∅) →
      ReachableHM cells0 (hmRefine s marked maxlv)

theorem reachableHM_inv {cells0 : Finset Cell} {s : HMState}
    (h : ReachableHM cells0 s) : HMInv cells0 s := by
  induction h with
  | init => exact hmInit_inv cells0
  | step s marked maxlv _ hsub hbd ih => exact hmRefine_inv ih hsub hbd

/-- C1: for every sequence of `HMesh.refine` calls in which each marked cell is
active on its level at the time of the call, the hierarchical mesh satisfies,
after every call and on every level `lv`: `active[lv] ∩ deactivated[lv] = ∅`,
and every deactivated cell's `2^D` children are all present (active or
deactivated) on the next level. -/
theorem hmesh_refine_partition_invariant (cells0 : Finset Cell) (s : HMState)
    (h : ReachableHM cells0 s) (lv : ℕ) :
    s.active lv ∩ s.deactivated lv = ∅ ∧
    ∀ c ∈ s.deactivated lv, (cellChildren c).length = 2 ^ c.length ∧
      ∀ e ∈ cellChildren c, e ∈ s.active (lv + 1) ∪ s.deactivated (lv + 1) := by
  have hInv := reachableHM_inv h
  exact ⟨hInv.disj lv, fun c hc =>
    ⟨cellChildren_length c, fun e he => hInv.childPresent lv c hc e he⟩⟩

/-- Marked dictionary of the C1 witness scenario: refine cell `(0,)` of a
two-cell 1D coarse mesh. -/
def wMarked1 : ℕ → Finset Cell := fun l => if l = 0 then {[0]} else ∅

/-- Witness state: one refine call on the two-cell coarse mesh. -/
def wState1 : HMState := hmRefine (hmInit {[0], [1]}) wMarked1 0

theorem wState1_reachable : ReachableHM {[0], [1]} wState1 := by
  refine ReachableHM.step _ _ _ ReachableHM.init ?_ ?_
  · intro l
    cases l with
    | zero => decide
    | succ k =>
        intro c hc
        simp [wMarked1] at hc
  · intro l hl
    have : l ≠ 0 := by omega
    simp [wMarked1, this]

theorem hmesh_refine_partition_invariant_witness :
    wState1.active 0 ∩ wState1.deactivated 0 = ∅ ∧
    ∀ c ∈ wState1.deactivated 0, (cellChildren c).length = 2 ^ c.length ∧
      ∀ e ∈ cellChildren c, e ∈ wState1.active 1 ∪ wState1.deactivated 1 :=
  hmesh_refine_partition_invariant {[0], [1]} wState1 wState1_reachable 0

/-- C7: for every valid level `lv` (with `lv+1` also valid), applying
`cell_parent` at level `lv+1` to `cell_children(lv, cells)` returns exactly
the original set of cells (equality as sets). -/
theorem cell_parent_children_roundtrip (numMeshes lv : ℕ) (cells : List Cell)
    (h : lv + 1 < numMeshes) :
    (cellChildrenChk numMeshes lv cells).bind (cellParentChk numMeshes (lv + 1))
      = .ok (sortedUnique ((cells.flatMap cellChildren).map cellParent)) ∧
    (sortedUnique ((cells.flatMap cellChildren).map cellParent)).toFinset
      = cells.toFinset := by
  constructor
  · rw [cellChildrenChk, if_pos h]
    show cellParentChk numMeshes (lv + 1) (cells.flatMap cellChildren) = _
    rw [cellParentChk, if_pos ⟨by omega, by omega⟩]
  · ext a
    simp only [List.mem_toFinset, mem_sortedUnique, List.mem_map, List.mem_flatMap]
    constructor
    · rintro ⟨d, ⟨c, hc, hd⟩, rfl⟩
      rw [cellParent_of_mem_cellChildren hd]
      exact hc
    · intro ha
      obtain ⟨e, he⟩ := List.exists_mem_of_ne_nil _ (cellChildren_ne_nil a)
      exact ⟨e, ⟨a, ha, he⟩, cellParent_of_mem_cellChildren he⟩

theorem cell_parent_children_roundtrip_witness :
    (cellChildrenChk 2 0 [[0], [1]]).bind (cellParentChk 2 1)
      = .ok (sortedUnique ((([[0], [1]] : List Cell).flatMap cellChildren).map cellParent)) ∧
    (sortedUnique ((([[0], [1]] : List Cell).flatMap cellChildren).map cellParent)).toFinset
      = ([[0], [1]] : List Cell).toFinset :=
  cell_parent_children_roundtrip 2 0 [[0], [1]] (by omega)

/-- C9 (code bug): `cell_babys` called with the explicit, invalid target level
`0` on a three-level mesh does not fail: the `if not targetlv` default check
silently replaces the explicit `0` by the default `len(meshes) - 1 = 2` and
the call succeeds, returning the level-2 descendants. -/
theorem cell_babys_explicit_zero_target_silent_default :
    cellBabys 3 0 [[0]] (some 0) = .ok [[0], [1], [2], [3]] ∧
    cellBabys 3 0 [[0]] (some 0) = cellBabys 3 0 [[0]] none := by
  exact ⟨rfl, rfl⟩

/-! ## HMesh_cells: covering marked cells by active cells (claim C6)

`_TP_to_HMesh_cells_up` / `_TP_to_HMesh_cells_down` are `while` loops whose
step count is bounded by the number of levels (the `try/except AssertionError`
at the level bounds never fires on reachable states because the remaining set
is already empty there); they become fuel-based recursions, called with enough
fuel.  Python dictionaries of per-level cell sets are total functions with
`∅` for absent keys, which also renders `_clean_Hmesh_cells` invisible;
`_combine_HMesh_cells` is the pointwise union. -/

/-- Ascending pass `_TP_to_HMesh_cells_up`: strip the active part of the
current set, replace the rest by its children, move one level down. -/
def upF (s : HMState) : ℕ → ℕ → Finset Cell → (ℕ → Finset Cell)
  | 0, _, _ => fun _ => ∅
  | fuel + 1, lv, aux =>
      if aux = ∅ then fun _ => ∅
      else Function.update (upF s fuel (lv + 1) (childrenSetF (aux \ s.active lv))) lv
        (aux ∩ s.active lv)

/-- Descending pass `_TP_to_HMesh_cells_down`: strip the active part, replace
the rest by its parents, move one level up. -/
def downF (s : HMState) : ℕ → ℕ → Finset Cell → (ℕ → Finset Cell)
  | 0, _, _ => fun _ => ∅
  | fuel + 1, lv, aux =>
      if aux = ∅ then fun _ => ∅
      else Function.update (downF s fuel (lv - 1) ((aux \ s.active lv).image cellParent)) lv
        (aux ∩ s.active lv)

/-- `HMesh._TP_to_HMesh_cells`: split the request into its represented part
(sent upward) and the rest (sent downward), then combine. -/
def tpToHMC (s : HMState) (lv : ℕ) (cells : Finset Cell) : ℕ → Finset Cell :=
  let rep := s.active lv ∪ s.deactivated lv
  let outUp := upF s s.numLevels lv (cells ∩ rep)
  let outDown := downF s (lv + 1) lv (cells \ rep)
  fun l => outDown l ∪ outUp l

/-- `HMesh.HMesh_cells(marked)`: combine the per-level results over the levels
present in the dictionary. -/
def hmeshCells (s : HMState) (levels : List ℕ) (marked : ℕ → Finset Cell) :
    ℕ → Finset Cell :=
  levels.foldl (fun out lv => fun l => out l ∪ tpToHMC s lv (marked lv) l) (fun _ => ∅)

theorem upF_empty (s : HMState) (fuel lv : ℕ) : upF s fuel lv ∅ = fun _ => ∅ := by
  cases fuel with
  | zero => rfl
  | succ n => rw [upF, if_pos rfl]

theorem downF_empty (s : HMState) (fuel lv : ℕ) : downF s fuel lv ∅ = fun _ => ∅ := by
  cases fuel with
  | zero => rfl
  | succ n => rw [downF, if_pos rfl]

/-- Strict ancestors of represented cells are deactivated. -/
theorem hm_anc_deact {cells0 : Finset Cell} {s : HMState} (hInv : HMInv cells0 s) :
    ∀ k, 1 ≤ k → ∀ l c, k ≤ l → c ∈ s.active l ∪ s.deactivated l →
      iterParent k c ∈ s.deactivated (l - k) := by
  intro k
  induction k with
  | zero => intro h; omega
  | succ k ih =>
      intro _ l c hkl hc
      cases k with
      | zero =>
          obtain ⟨m, rfl⟩ : ∃ m, l = m + 1 := ⟨l - 1, by omega⟩
          have := hInv.parentDeact m c hc
          simpa [iterParent_succ, iterParent_zero] using this
      | succ j =>
          have hj := ih (by omega) l c (by omega) hc
          have h1 : 1 ≤ l - (j + 1) := by omega
          obtain ⟨m, hm⟩ : ∃ m, l - (j + 1) = m + 1 := ⟨l - (j + 1) - 1, by omega⟩
          have hrep : iterParent (j + 1) c ∈ s.active (m + 1) ∪ s.deactivated (m + 1) := by
            rw [← hm]; exact Finset.mem_union_right _ hj
          have := hInv.parentDeact m (iterParent (j + 1) c) hrep
          rw [iterParent_succ]
          have hm2 : m = l - (j + 2) := by omega
          rw [← hm2]
          exact this

/-- The deactivated set of the last level is empty. -/
theorem hm_top_deact_empty {cells0 : Finset Cell} {s : HMState} (hInv : HMInv cells0 s) :
    ∀ l, s.numLevels ≤ l + 1 → s.deactivated l = ∅ := by
  intro l hl
  rw [Finset.eq_empty_iff_forall_not_mem]
  intro c hc
  obtain ⟨e, he⟩ := List.exists_mem_of_ne_nil _ (cellChildren_ne_nil c)
  have := hInv.childPresent l c hc e he
  rw [(hInv.beyond (l + 1) (by omega)).1, (hInv.beyond (l + 1) (by omega)).2] at this
  exact absurd this (by simp)

/-- Every genuine mesh cell that is not represented on its level has an
active strict ancestor. -/
theorem hm_uncovered_active_anc {cells0 : Finset Cell} {s : HMState}
    (hInv : HMInv cells0 s) :
    ∀ l c, c ∈ allCellsFrom cells0 l → c ∉ s.active l ∪ s.deactivated l →
      ∃ k, 1 ≤ k ∧ k ≤ l ∧ iterParent k c ∈ s.active (l - k) := by
  intro l
  induction l with
  | zero =>
      intro c hc hnc
      rw [← hInv.levelZero] at hc
      exact absurd hc hnc
  | succ l ih =>
      intro c hc hnc
      have hp : cellParent c ∈ allCellsFrom cells0 l := by
        rw [allCellsFrom_succ, mem_childrenSetF] at hc
        exact hc
      by_cases hact : cellParent c ∈ s.active l
      · exact ⟨1, le_refl 1, by omega, by
          simpa [iterParent_succ, iterParent_zero] using hact⟩
      · by_cases hdea : cellParent c ∈ s.deactivated l
        · have := hInv.childPresent l (cellParent c) hdea c (mem_cellChildren_iff.mpr rfl)
          exact absurd this hnc
        · have hnp : cellParent c ∉ s.active l ∪ s.deactivated l := by
            rw [Finset.mem_union]; tauto
          obtain ⟨k, hk1, hkl, hka⟩ := ih (cellParent c) hp hnp
          refine ⟨k + 1, by omega, by omega, ?_⟩
          rw [iterParent_succ_inner]
          have : l - k = l + 1 - (k + 1) := by omega
          rw [← this]
          exact hka

/-- Two active cells with a common descendant coincide. -/
theorem hm_active_anc_eq {cells0 : Finset Cell} {s : HMState} (hInv : HMInv cells0 s)
    {l l2 M : ℕ} {a b d : Cell} (hl : l ≤ M) (hl2 : l2 ≤ M)
    (ha : a ∈ s.active l) (hb : b ∈ s.active l2)
    (hda : iterParent (M - l) d = a) (hdb : iterParent (M - l2) d = b) :
    l = l2 ∧ a = b := by
  have key : ∀ {u v : ℕ} {x y : Cell}, u ≤ v → v ≤ M → x ∈ s.active u → y ∈ s.active v →
      iterParent (M - u) d = x → iterParent (M - v) d = y → u = v ∧ x = y := by
    intro u v x y huv hvM hx hy hdx hdy
    have hsplit : iterParent (M - u) d = iterParent (v - u) (iterParent (M - v) d) := by
      rw [← iterParent_add]
      congr 1
      omega
    rcases Nat.lt_or_ge u v with hlt | hge
    · exfalso
      have h1 : iterParent (v - u) y ∈ s.deactivated (v - (v - u)) :=
        hm_anc_deact hInv (v - u) (by omega) v y (by omega) (Finset.mem_union_left _ hy)
      have h2 : v - (v - u) = u := by omega
      rw [h2] at h1
      rw [hdy] at hsplit
      rw [hdx] at hsplit
      have := hInv.disj u
      rw [Finset.eq_empty_iff_forall_not_mem] at this
      exact this x (Finset.mem_inter.mpr ⟨hx, hsplit ▸ h1⟩)
    · have huveq : u = v := by omega
      subst huveq
      refine ⟨rfl, ?_⟩
      rw [← hdx, ← hdy]
  rcases le_or_lt l l2 with h | h
  · exact key h hl2 ha hb hda hdb
  · obtain ⟨h1, h2⟩ := key (le_of_lt h) hl hb ha hdb hda
    exact ⟨h1.symm, h2.symm⟩

/-- Membership description of the ascending pass: it collects exactly the
active descendants of the represented request cells. -/
theorem upF_mem {cells0 : Finset Cell} {s : HMState} (hInv : HMInv cells0 s) :
    ∀ fuel lv aux, aux ⊆ s.active lv ∪ s.deactivated lv → s.numLevels ≤ lv + fuel →
      ∀ l a, a ∈ upF s fuel lv aux l ↔
        (lv ≤ l ∧ a ∈ s.active l ∧ iterParent (l - lv) a ∈ aux) := by
  intro fuel
  induction fuel with
  | zero =>
      intro lv aux hsub hfuel l a
      have haux : aux = ∅ := by
        have h1 := (hInv.beyond lv (by omega)).1
        have h2 := (hInv.beyond lv (by omega)).2
        rw [h1, h2] at hsub
        simpa using Finset.subset_empty.mp (by simpa using hsub)
      subst haux
      show a ∈ (∅ : Finset Cell) ↔ _
      simp
  | succ fuel ih =>
      intro lv aux hsub hfuel l a
      by_cases hne : aux = ∅
      · subst hne
        rw [upF, if_pos rfl]
        show a ∈ (∅ : Finset Cell) ↔ _
        simp
      · rw [upF, if_neg hne]
        by_cases hl : l = lv
        · subst hl
          rw [Function.update_same]
          simp only [Finset.mem_inter, Nat.sub_self, iterParent_zero]
          constructor
          · rintro ⟨h1, h2⟩; exact ⟨le_refl l, h2, h1⟩
          · rintro ⟨-, h2, h3⟩; exact ⟨h3, h2⟩
        · rw [Function.update_noteq hl]
          have hsub2 : childrenSetF (aux \ s.active lv)
              ⊆ s.active (lv + 1) ∪ s.deactivated (lv + 1) := by
            intro e he
            rw [mem_childrenSetF] at he
            have hd : cellParent e ∈ s.deactivated lv := by
              have h1 := hsub (Finset.mem_sdiff.mp he).1
              rcases Finset.mem_union.mp h1 with h2 | h2
              · exact absurd h2 (Finset.mem_sdiff.mp he).2
              · exact h2
            exact hInv.childPresent lv _ hd e (mem_cellChildren_iff.mpr rfl)
          rw [ih (lv + 1) _ hsub2 (by omega) l a]
          have heq : ∀ b : Cell, lv + 1 ≤ l →
              cellParent (iterParent (l - (lv + 1)) b) = iterParent (l - lv) b := by
            intro b hb
            rw [← iterParent_succ]
            congr 1
            omega
          constructor
          · rintro ⟨h1, h2, h3⟩
            rw [mem_childrenSetF, Finset.mem_sdiff, heq a h1] at h3
            exact ⟨by omega, h2, h3.1⟩
          · rintro ⟨h1, h2, h3⟩
            have h1b : lv + 1 ≤ l := by omega
            refine ⟨h1b, h2, ?_⟩
            rw [mem_childrenSetF, Finset.mem_sdiff, heq a h1b]
            refine ⟨h3, ?_⟩
            intro hcontra
            have hk : 1 ≤ l - lv := by omega
            have hdd := hm_anc_deact hInv (l - lv) hk l a (by omega)
              (Finset.mem_union_left _ h2)
            rw [show l - (l - lv) = lv by omega] at hdd
            have hdisj := hInv.disj lv
            rw [Finset.eq_empty_iff_forall_not_mem] at hdisj
            exact hdisj _ (Finset.mem_inter.mpr ⟨hcontra, hdd⟩)

/-- Membership description of the descending pass: it collects exactly the
active ancestors of the unrepresented request cells. -/
theorem downF_mem {cells0 : Finset Cell} {s : HMState} (hInv : HMInv cells0 s) :
    ∀ fuel lv aux, aux ⊆ allCellsFrom cells0 lv → (∀ c ∈ aux, c ∉ s.deactivated lv) →
      lv + 1 ≤ fuel →
      ∀ l a, a ∈ downF s fuel lv aux l ↔
        (l ≤ lv ∧ a ∈ s.active l ∧ ∃ c ∈ aux, iterParent (lv - l) c = a) := by
  intro fuel
  induction fuel with
  | zero =>
      intro lv aux _ _ hfuel
      omega
  | succ fuel ih =>
      intro lv aux hcells hnd hfuel l a
      by_cases hne : aux = ∅
      · subst hne
        rw [downF, if_pos rfl]
        show a ∈ (∅ : Finset Cell) ↔ _
        simp
      · rw [downF, if_neg hne]
        by_cases hl : l = lv
        · subst hl
          rw [Function.update_same]
          simp only [Finset.mem_inter, Nat.sub_self, iterParent_zero]
          constructor
          · rintro ⟨h1, h2⟩; exact ⟨le_refl l, h2, a, h1, rfl⟩
          · rintro ⟨-, h2, c, hc, rfl⟩; exact ⟨hc, h2⟩
        · rw [Function.update_noteq hl]
          cases lv with
          | zero =>
              have hempty : aux \ s.active 0 = ∅ := by
                rw [Finset.eq_empty_iff_forall_not_mem]
                intro c hc
                rw [Finset.mem_sdiff] at hc
                have h1 : c ∈ s.active 0 ∪ s.deactivated 0 := by
                  rw [hInv.levelZero]
                  exact hcells hc.1
                rcases Finset.mem_union.mp h1 with h2 | h2
                · exact hc.2 h2
                · exact hnd c hc.1 h2
              rw [hempty, Finset.image_empty, downF_empty]
              show a ∈ (∅ : Finset Cell) ↔ _
              constructor
              · intro h; exact absurd h (by simp)
              · rintro ⟨h1, -, -⟩; omega
          | succ k =>
              have hcells2 : (aux \ s.active (k + 1)).image cellParent
                  ⊆ allCellsFrom cells0 k := by
                intro x hx
                rw [Finset.mem_image] at hx
                obtain ⟨c0, hc0, rfl⟩ := hx
                have h1 : c0 ∈ allCellsFrom cells0 (k + 1) := hcells (Finset.mem_sdiff.mp hc0).1
                rw [allCellsFrom_succ, mem_childrenSetF] at h1
                exact h1
              have hnd2 : ∀ x ∈ (aux \ s.active (k + 1)).image cellParent,
                  x ∉ s.deactivated k := by
                intro x hx hdx
                rw [Finset.mem_image] at hx
                obtain ⟨c0, hc0, rfl⟩ := hx
                rw [Finset.mem_sdiff] at hc0
                have := hInv.childPresent k _ hdx c0 (mem_cellChildren_iff.mpr rfl)
                rcases Finset.mem_union.mp this with h2 | h2
                · exact hc0.2 h2
                · exact hnd c0 hc0.1 h2
              simp only [Nat.add_sub_cancel]
              rw [ih k _ hcells2 hnd2 (by omega) l a]
              constructor
              · rintro ⟨h1, h2, c, hc, hce⟩
                rw [Finset.mem_image] at hc
                obtain ⟨c0, hc0, rfl⟩ := hc
                refine ⟨by omega, h2, c0, (Finset.mem_sdiff.mp hc0).1, ?_⟩
                rw [show (k + 1) - l = (k - l) + 1 by omega, iterParent_succ_inner]
                exact hce
              · rintro ⟨h1, h2, c, hc, hce⟩
                have hll : l ≤ k := by omega
                have hnotact : c ∉ s.active (k + 1) := by
                  intro hact
                  have hk1 : 1 ≤ (k + 1) - l := by omega
                  have hdd := hm_anc_deact hInv ((k + 1) - l) hk1 (k + 1) c (by omega)
                    (Finset.mem_union_left _ hact)
                  rw [show (k + 1) - ((k + 1) - l) = l by omega, hce] at hdd
                  have hdisj := hInv.disj l
                  rw [Finset.eq_empty_iff_forall_not_mem] at hdisj
                  exact hdisj _ (Finset.mem_inter.mpr ⟨h2, hdd⟩)
                refine ⟨hll, h2, cellParent c,
                  Finset.mem_image_of_mem _ (Finset.mem_sdiff.mpr ⟨hc, hnotact⟩), ?_⟩
                rw [show (k + 1) - l = (k - l) + 1 by omega, iterParent_succ_inner] at hce
                exact hce

/-- Meeting of dyadic extents: the extent of cell `a` on level `l` intersects
the extent of cell `c` on level `lv` exactly when one is an iterated-parent of
the other. -/
def cellMeets (l : ℕ) (a : Cell) (lv : ℕ) (c : Cell) : Prop :=
  (lv ≤ l ∧ iterParent (l - lv) a = c) ∨ (l ≤ lv ∧ iterParent (lv - l) c = a)

instance (l : ℕ) (a : Cell) (lv : ℕ) (c : Cell) : Decidable (cellMeets l a lv c) := by
  unfold cellMeets
  infer_instance

theorem tpToHMC_mem {cells0 : Finset Cell} {s : HMState} (hInv : HMInv cells0 s)
    (lv : ℕ) (cells : Finset Cell) (hlv : lv < s.numLevels)
    (hcells : cells ⊆ allCellsFrom cells0 lv) (l : ℕ) (a : Cell) :
    a ∈ tpToHMC s lv cells l ↔ a ∈ s.active l ∧ ∃ c ∈ cells, cellMeets l a lv c := by
  have hdisj : ∀ j, ∀ x, x ∈ s.active j → x ∉ s.deactivated j := by
    intro j x h1 h2
    have := hInv.disj j
    rw [Finset.eq_empty_iff_forall_not_mem] at this
    exact this x (Finset.mem_inter.mpr ⟨h1, h2⟩)
  have hup := upF_mem hInv s.numLevels lv (cells ∩ (s.active lv ∪ s.deactivated lv))
    (Finset.inter_subset_right) (by omega)
  have hdown := downF_mem hInv (lv + 1) lv (cells \ (s.active lv ∪ s.deactivated lv))
    (le_trans (Finset.sdiff_subset) hcells)
    (fun c hc => fun hd => (Finset.mem_sdiff.mp hc).2 (Finset.mem_union_right _ hd))
    (le_refl _)
  show a ∈ downF s (lv + 1) lv _ l ∪ upF s s.numLevels lv _ l ↔ _
  rw [Finset.mem_union, hdown l a, hup l a]
  constructor
  · rintro (⟨h1, h2, c, hc, hce⟩ | ⟨h1, h2, h3⟩)
    · exact ⟨h2, c, (Finset.mem_sdiff.mp hc).1, Or.inr ⟨h1, hce⟩⟩
    · rw [Finset.mem_inter] at h3
      exact ⟨h2, _, h3.1, Or.inl ⟨h1, rfl⟩⟩
  · rintro ⟨ha, c, hc, hm⟩
    by_cases hrep : c ∈ s.active lv ∪ s.deactivated lv
    · right
      rcases hm with ⟨h1, h2⟩ | ⟨h1, h2⟩
      · exact ⟨h1, ha, Finset.mem_inter.mpr ⟨h2 ▸ hc, h2 ▸ hrep⟩⟩
      · have hll : l = lv := by
          by_contra hne
          have hk : 1 ≤ lv - l := by omega
          have hdd := hm_anc_deact hInv (lv - l) hk lv c (by omega) hrep
          rw [show lv - (lv - l) = l by omega, h2] at hdd
          exact hdisj l a ha hdd
        subst hll
        rw [Nat.sub_self, iterParent_zero] at h2
        subst h2
        exact ⟨le_refl l, ha, Finset.mem_inter.mpr ⟨by
          rw [Nat.sub_self, iterParent_zero]; exact hc, by
          rw [Nat.sub_self, iterParent_zero]; exact hrep⟩⟩
    · left
      rcases hm with ⟨h1, h2⟩ | ⟨h1, h2⟩
      · by_cases hne : l = lv
        · subst hne
          rw [Nat.sub_self, iterParent_zero] at h2
          subst h2
          exact absurd (Finset.mem_union_left _ ha) hrep
        · exfalso
          have hk : 1 ≤ l - lv := by omega
          have hdd := hm_anc_deact hInv (l - lv) hk l a (by omega)
            (Finset.mem_union_left _ ha)
          rw [show l - (l - lv) = lv by omega, h2] at hdd
          exact hrep (Finset.mem_union_right _ hdd)
      · exact ⟨h1, ha, c, Finset.mem_sdiff.mpr ⟨hc, hrep⟩, h2⟩

theorem hmeshCells_fold_mem (s : HMState) (marked : ℕ → Finset Cell) :
    ∀ (levels : List ℕ) (acc : ℕ → Finset Cell) (l : ℕ) (a : Cell),
      a ∈ (levels.foldl (fun out lv => fun l2 => out l2 ∪ tpToHMC s lv (marked lv) l2) acc) l
        ↔ a ∈ acc l ∨ ∃ lv ∈ levels, a ∈ tpToHMC s lv (marked lv) l := by
  intro levels
  induction levels with
  | nil => intro acc l a; simp
  | cons lv0 rest ih =>
      intro acc l a
      rw [List.foldl_cons, ih]
      show (a ∈ acc l ∪ tpToHMC s lv0 (marked lv0) l ∨ _) ↔ _
      rw [Finset.mem_union]
      simp only [List.mem_cons]
      constructor
      · rintro ((h | h) | ⟨lv, hlv, h⟩)
        · exact Or.inl h
        · exact Or.inr ⟨lv0, Or.inl rfl, h⟩
        · exact Or.inr ⟨lv, Or.inr hlv, h⟩
      · rintro (h | ⟨lv, hlv | hlv, h⟩)
        · exact Or.inl (Or.inl h)
        · exact Or.inl (Or.inr (hlv ▸ h))
        · exact Or.inr ⟨lv, hlv, h⟩

theorem mem_hmeshCells {cells0 : Finset Cell} {s : HMState} (hInv : HMInv cells0 s)
    (levels : List ℕ) (marked : ℕ → Finset Cell)
    (hlv : ∀ lv ∈ levels, lv < s.numLevels)
    (hcells : ∀ lv ∈ levels, marked lv ⊆ allCellsFrom cells0 lv) (l : ℕ) (a : Cell) :
    a ∈ hmeshCells s levels marked l ↔
      a ∈ s.active l ∧ ∃ lv ∈ levels, ∃ c ∈ marked lv, cellMeets l a lv c := by
  rw [hmeshCells, hmeshCells_fold_mem]
  constructor
  · rintro (h | ⟨lv, hmem, h⟩)
    · exact absurd h (by simp)
    · rw [tpToHMC_mem hInv lv (marked lv) (hlv lv hmem) (hcells lv hmem) l a] at h
      exact ⟨h.1, lv, hmem, h.2⟩
  · rintro ⟨ha, lv, hmem, c, hc, hm⟩
    right
    exact ⟨lv, hmem, (tpToHMC_mem hInv lv (marked lv) (hlv lv hmem) (hcells lv hmem) l a).mpr
      ⟨ha, c, hc, hm⟩⟩

theorem mem_active_level_lt {cells0 : Finset Cell} {s : HMState} (hInv : HMInv cells0 s)
    {l : ℕ} {a : Cell} (h : a ∈ s.active l) : l < s.numLevels := by
  by_contra hc
  rw [(hInv.beyond l (by omega)).1] at h
  exact absurd h (Finset.not_mem_empty a)

theorem allCellsFrom_iter {cells0 : Finset Cell} {lv k : ℕ} {c d : Cell}
    (hd : d ∈ iterChildrenF k c) (hc : c ∈ allCellsFrom cells0 lv) :
    d ∈ allCellsFrom cells0 (lv + k) := by
  induction k generalizing d with
  | zero =>
      have : d = c := by simpa [iterChildrenF] using hd
      subst this
      exact hc
  | succ n ih =>
      have hstep : d ∈ childrenSetF (iterChildrenF n c) := hd
      rw [mem_childrenSetF] at hstep
      have := ih hstep
      show d ∈ allCellsFrom cells0 (lv + n + 1)
      rw [allCellsFrom_succ, mem_childrenSetF]
      exact this

/-- C6 (amended): on every reachable hierarchical mesh state, for genuine
request cells on valid levels, `HMesh_cells` returns exactly the active cells
whose dyadic extent meets the extent of some requested cell.  Consequently the
result (i) consists of active cells, (iii) covers the requested region, (iv)
covers it exactly when every requested cell is represented (active or
deactivated) on its level, and (v) is contained in every family of active
cells covering the requested region (minimality).  The extent of a level-`l`
cell is its set of descendants on the finest level `M = numlevels - 1`. -/
theorem hmesh_cells_returns_minimal_active_cover (cells0 : Finset Cell) (s : HMState)
    (h : ReachableHM cells0 s) (levels : List ℕ) (marked : ℕ → Finset Cell)
    (hlv : ∀ lv ∈ levels, lv < s.numLevels)
    (hcells : ∀ lv ∈ levels, marked lv ⊆ allCellsFrom cells0 lv) :
    (∀ l, hmeshCells s levels marked l ⊆ s.active l) ∧
    (∀ l a, a ∈ hmeshCells s levels marked l ↔ a ∈ s.active l ∧
        ∃ lv ∈ levels, ∃ c ∈ marked lv, cellMeets l a lv c) ∧
    (∀ lv ∈ levels, ∀ c ∈ marked lv, ∀ d ∈ iterChildrenF (s.numLevels - 1 - lv) c,
        ∃ l a, a ∈ hmeshCells s levels marked l ∧
          d ∈ iterChildrenF (s.numLevels - 1 - l) a) ∧
    ((∀ lv ∈ levels, marked lv ⊆ s.active lv ∪ s.deactivated lv) →
      ∀ l, ∀ a ∈ hmeshCells s levels marked l, ∀ d ∈ iterChildrenF (s.numLevels - 1 - l) a,
        ∃ lv ∈ levels, ∃ c ∈ marked lv, d ∈ iterChildrenF (s.numLevels - 1 - lv) c) ∧
    (∀ F : ℕ → Finset Cell, (∀ l, F l ⊆ s.active l) →
      (∀ lv ∈ levels, ∀ c ∈ marked lv, ∀ d ∈ iterChildrenF (s.numLevels - 1 - lv) c,
          ∃ l a, a ∈ F l ∧ d ∈ iterChildrenF (s.numLevels - 1 - l) a) →
      ∀ l, hmeshCells s levels marked l ⊆ F l) := by
  have hInv := reachableHM_inv h
  set M := s.numLevels - 1 with hM
  have hmem := mem_hmeshCells hInv levels marked hlv hcells
  refine ⟨?_, hmem, ?_, ?_, ?_⟩
  · intro l a ha
    exact ((hmem l a).mp ha).1
  · -- coverage of the requested region
    intro lv hlvmem c hc d hd
    have hlvM : lv ≤ M := by have := hlv lv hlvmem; omega
    have hdc : iterParent (M - lv) d = c := mem_iterChildrenF.mp hd
    have hdcells : d ∈ allCellsFrom cells0 M := by
      have := allCellsFrom_iter hd (hcells lv hlvmem hc)
      rwa [show lv + (M - lv) = M by omega] at this
    by_cases hact : d ∈ s.active M
    · refine ⟨M, d, ?_, ?_⟩
      · rw [hmem M d]
        exact ⟨hact, lv, hlvmem, c, hc, Or.inl ⟨hlvM, hdc⟩⟩
      · rw [Nat.sub_self]
        simp [iterChildrenF]
    · by_cases hdea : d ∈ s.deactivated M
      · exfalso
        have := hm_top_deact_empty hInv M (by omega)
        rw [this] at hdea
        exact absurd hdea (Finset.not_mem_empty d)
      · have hnd : d ∉ s.active M ∪ s.deactivated M := by
          rw [Finset.mem_union]; tauto
        obtain ⟨k, hk1, hkM, hka⟩ := hm_uncovered_active_anc hInv M d hdcells hnd
        refine ⟨M - k, iterParent k d, ?_, ?_⟩
        · rw [hmem (M - k) (iterParent k d)]
          refine ⟨hka, lv, hlvmem, c, hc, ?_⟩
          rcases le_or_lt (M - k) lv with hcase | hcase
          · right
            refine ⟨hcase, ?_⟩
            rw [← hdc, ← iterParent_add]
            congr 1
            omega
          · left
            refine ⟨by omega, ?_⟩
            rw [← iterParent_add, ← hdc]
            congr 1
            omega
        · rw [mem_iterChildrenF, show M - (M - k) = k by omega]
  · -- exact coverage when the request is represented
    intro hrep l a ha d hd
    rw [hmem l a] at ha
    obtain ⟨hact, lv, hlvmem, c, hc, hme⟩ := ha
    have hlM : l ≤ M := by have := mem_active_level_lt hInv hact; omega
    have hlvM : lv ≤ M := by have := hlv lv hlvmem; omega
    have hdesc : lv ≤ l ∧ iterParent (l - lv) a = c := by
      rcases hme with h1 | ⟨h1, h2⟩
      · exact h1
      · by_cases hll : l = lv
        · subst hll
          rw [Nat.sub_self, iterParent_zero] at h2
          exact ⟨le_refl l, by rw [Nat.sub_self, iterParent_zero, h2]⟩
        · exfalso
          have hk : 1 ≤ lv - l := by omega
          have hdd := hm_anc_deact hInv (lv - l) hk lv c (by omega) (hrep lv hlvmem hc)
          rw [show lv - (lv - l) = l by omega, h2] at hdd
          have hdisj := hInv.disj l
          rw [Finset.eq_empty_iff_forall_not_mem] at hdisj
          exact hdisj a (Finset.mem_inter.mpr ⟨hact, hdd⟩)
    refine ⟨lv, hlvmem, c, hc, ?_⟩
    rw [mem_iterChildrenF] at hd ⊢
    rw [← hdesc.2, ← hd, ← iterParent_add]
    congr 1
    omega
  · -- minimality among active covering families
    intro F hFsub hFcov l a ha
    rw [hmem l a] at ha
    obtain ⟨hact, lv, hlvmem, c, hc, hme⟩ := ha
    have hlM : l ≤ M := by have := mem_active_level_lt hInv hact; omega
    have hlvM : lv ≤ M := by have := hlv lv hlvmem; omega
    -- produce a common finest-level descendant d of a and c
    have hcommon : ∃ d, iterParent (M - l) d = a ∧ iterParent (M - lv) d = c := by
      rcases hme with ⟨h1, h2⟩ | ⟨h1, h2⟩
      · obtain ⟨d, hd⟩ := iterChildrenF_nonempty (M - l) a
        rw [mem_iterChildrenF] at hd
        refine ⟨d, hd, ?_⟩
        rw [← h2, ← hd, ← iterParent_add]
        congr 1
        omega
      · obtain ⟨d, hd⟩ := iterChildrenF_nonempty (M - lv) c
        rw [mem_iterChildrenF] at hd
        refine ⟨d, ?_, hd⟩
        rw [← h2, ← hd, ← iterParent_add]
        congr 1
        omega
    obtain ⟨d, hda, hdc⟩ := hcommon
    obtain ⟨l2, b, hbF, hdb⟩ := hFcov lv hlvmem c hc d (mem_iterChildrenF.mpr hdc)
    have hbact : b ∈ s.active l2 := hFsub l2 hbF
    have hl2M : l2 ≤ M := by have := mem_active_level_lt hInv hbact; omega
    rw [mem_iterChildrenF] at hdb
    obtain ⟨heq1, heq2⟩ := hm_active_anc_eq hInv hlM hl2M hact hbact hda hdb
    subst heq1
    exact heq2 ▸ hbF

/-- Level dictionary of the C6 scenario: request the unrepresented level-1
cell `(2,)`. -/
def m6 : ℕ → Finset Cell := fun l => if l = 1 then {[2]} else ∅

/-- Union of the finest-level extents of a per-level family of cells. -/
def covUnion (s : HMState) (f : ℕ → Finset Cell) : Finset Cell :=
  (Finset.range s.numLevels).biUnion
    (fun l => (f l).biUnion (iterChildrenF (s.numLevels - 1 - l)))

/-- C6 (counterexample to the claim as stated): on the refined two-cell mesh,
requesting the unrepresented fine cell `(2,)` returns its active coarse
ancestor `(1,)`, whose extent strictly exceeds the requested extent: the union
of extents of the result differs from the union of extents of the request. -/
theorem hmesh_cells_exact_cover_cex :
    covUnion wState1 (hmeshCells wState1 [1] m6) ≠ covUnion wState1 m6 := by
  decide

theorem hmesh_cells_returns_minimal_active_cover_witness :
    (∀ l, hmeshCells wState1 [1] m6 l ⊆ wState1.active l) ∧
    (∀ l a, a ∈ hmeshCells wState1 [1] m6 l ↔ a ∈ wState1.active l ∧
        ∃ lv ∈ [1], ∃ c ∈ m6 lv, cellMeets l a lv c) ∧
    (∀ lv ∈ [1], ∀ c ∈ m6 lv, ∀ d ∈ iterChildrenF (wState1.numLevels - 1 - lv) c,
        ∃ l a, a ∈ hmeshCells wState1 [1] m6 l ∧
          d ∈ iterChildrenF (wState1.numLevels - 1 - l) a) ∧
    ((∀ lv ∈ [1], m6 lv ⊆ wState1.active lv ∪ wState1.deactivated lv) →
      ∀ l, ∀ a ∈ hmeshCells wState1 [1] m6 l, ∀ d ∈ iterChildrenF (wState1.numLevels - 1 - l) a,
        ∃ lv ∈ [1], ∃ c ∈ m6 lv, d ∈ iterChildrenF (wState1.numLevels - 1 - lv) c) ∧
    (∀ F : ℕ → Finset Cell, (∀ l, F l ⊆ wState1.active l) →
      (∀ lv ∈ [1], ∀ c ∈ m6 lv, ∀ d ∈ iterChildrenF (wState1.numLevels - 1 - lv) c,
          ∃ l a, a ∈ F l ∧ d ∈ iterChildrenF (wState1.numLevels - 1 - l) a) →
      ∀ l, hmeshCells wState1 [1] m6 l ⊆ F l) :=
  hmesh_cells_returns_minimal_active_cover {[0], [1]} wState1 wState1_reachable [1] m6
    (by decide) (by decide)

/-! ## The hierarchical space (HSpace)

The per-level tensor-product spaces come from the external `bspline` module.
Modelled from the spec: each level `l` carries the set of basis functions of
the full tensor-product space (`allFuncs`), the cell support of each function
(`supp`, the spec's `mesh_support_idx`: `p+1` supporting cells per axis,
clamped at the boundary), the functions supported in a cell (`suppIn`) and the
combined (Kronecker) prolongation matrix `P l : level-(l+1) × level-l → ℚ`
from `bspline.prolongation`.  `MeshLaws` states the properties the spec
ascribes to these: `suppIn`/`supp` are adjoint incidence relations, supports
are nonempty sets of genuine cells, prolongation rows sum to one (the coarse
basis reproduces constants on the fine level) and a nonzero prolongation
entry forces support inclusion. -/

/-- External tensor-product mesh data for every level (modelled from the
spec; `bspline` is outside the analysed sources). -/
structure MeshData where
  cells0 : Finset Cell
  allFuncs : ℕ → Finset Cell
  supp : ℕ → Cell → Finset Cell
  suppIn : ℕ → Cell → Finset Cell
  P : ℕ → Cell → Cell → ℚ

/-- Functions supported in a set of cells (`TPMesh.supported_in`). -/
def suppInSet (dd : MeshData) (l : ℕ) (cs : Finset Cell) : Finset Cell :=
  cs.biUnion (dd.suppIn l)

/-- Cells where a set of functions is supported (`TPMesh.support`). -/
def suppSet (dd : MeshData) (l : ℕ) (fs : Finset Cell) : Finset Cell :=
  fs.biUnion (dd.supp l)

/-- Properties of the external mesh data, modelled from the spec. -/
structure MeshLaws (dd : MeshData) : Prop where
  galois : ∀ l c f, f ∈ dd.suppIn l c ↔ (f ∈ dd.allFuncs l ∧ c ∈ dd.supp l f)
  suppSub : ∀ l f, f ∈ dd.allFuncs l → dd.supp l f ⊆ allCellsFrom dd.cells0 l
  suppNE : ∀ l f, f ∈ dd.allFuncs l → (dd.supp l f).Nonempty
  prowsum : ∀ l j, j ∈ dd.allFuncs (l + 1) → ∑ i ∈ dd.allFuncs l, dd.P l j i = 1
  psupp : ∀ l i j, dd.P l j i ≠ 0 → i ∈ dd.allFuncs l ∧ j ∈ dd.allFuncs (l + 1) ∧
      dd.supp (l + 1) j ⊆ childrenSetF (dd.supp l i)

/-- State of an `HSpace`: the cell state plus per-level active and
deactivated basis-function sets. -/
structure HSState where
  hm : HMState
  actfun : ℕ → Finset Cell
  deactfun : ℕ → Finset Cell

/-- Initial hierarchical space: one level, all functions active. -/
def hsInit (dd : MeshData) : HSState :=
  ⟨hmInit dd.cells0, fun l => if l = 0 then dd.allFuncs 0 else ∅, fun _ => ∅⟩

/-- `HSpace._functions_to_deactivate` for one level (evaluated after the cell
refinement, exactly as in the source: only previously active functions that
are supported in a marked cell and whose support on their level no longer
meets an active cell). -/
def functionsToDeactivate (dd : MeshData) (s : HSState) (hmNew : HMState)
    (marked : ℕ → Finset Cell) (lv : ℕ) : Finset Cell :=
  if marked lv = ∅ then ∅
  else (suppInSet dd lv (marked lv) ∩ s.actfun lv).filter
    (fun f => dd.supp lv f ∩ hmNew.active lv = ∅)

/-- Body of the function-update loop in `HSpace.refine`: deactivate the
functions of `mf lv`, then activate on the next level those candidates
(supported in the new cells, not already active) whose support is contained
in cells represented on the next level. -/
def hsFunStep (dd : MeshData) (hmNew : HMState) (marked mf : ℕ → Finset Cell)
    (st : (ℕ → Finset Cell) × (ℕ → Finset Cell)) (lv : ℕ) :
    (ℕ → Finset Cell) × (ℕ → Finset Cell) :=
  let a1 := Function.update st.1 lv (st.1 lv \ mf lv)
  let d1 := Function.update st.2 lv (st.2 lv ∪ mf lv)
  let candidate := suppInSet dd (lv + 1) (childrenSetF (marked lv)) \ a1 (lv + 1)
  let fineCells := hmNew.active (lv + 1) ∪ hmNew.deactivated (lv + 1)
  let newfuncs := candidate.filter (fun f => dd.supp (lv + 1) f ⊆ fineCells)
  let a2 := Function.update a1 (lv + 1) (a1 (lv + 1) ∪ newfuncs)
  (a2, d1)

/-- `HSpace.refine` after the disparity expansion of `marked`: delegate the
cell refinement to `HMesh.refine`, compute the functions to deactivate, then
run the function-update loop over all levels but the last. -/
def hsRefineCore (dd : MeshData) (s : HSState) (marked : ℕ → Finset Cell)
    (maxlv : ℕ) : HSState :=
  let hmNew := hmRefine s.hm marked maxlv
  let mf := functionsToDeactivate dd s hmNew marked
  let st := (List.range (hmNew.numLevels - 1)).foldl (hsFunStep dd hmNew marked mf)
    (s.actfun, s.deactfun)
  ⟨hmNew, st.1, st.2⟩

/-- Closed form of the functions newly activated on level `l` by one refine
call (empty on level 0). -/
def hsNewFuncs (dd : MeshData) (hmNew : HMState) (marked aPre : ℕ → Finset Cell) :
    ℕ → Finset Cell
  | 0 => ∅
  | l + 1 =>
      (suppInSet dd (l + 1) (childrenSetF (marked l)) \ aPre (l + 1)).filter
        (fun f => dd.supp (l + 1) f ⊆ hmNew.active (l + 1) ∪ hmNew.deactivated (l + 1))

/-- Closed form of the active function sets after one refine call. -/
def hsRefineActfun (dd : MeshData) (hmNew : HMState) (marked mf a : ℕ → Finset Cell)
    (l : ℕ) : Finset Cell :=
  (a l ∪ hsNewFuncs dd hmNew marked a l) \ mf l

theorem suppInSet_empty (dd : MeshData) (l : ℕ) : suppInSet dd l ∅ = ∅ := rfl

theorem hsNewFuncs_empty_of_marked (dd : MeshData) (hmNew : HMState)
    (marked aPre : ℕ → Finset Cell) (l : ℕ)
    (h : ∀ k, k + 1 = l → marked k = ∅) : hsNewFuncs dd hmNew marked aPre l = ∅ := by
  cases l with
  | zero => rfl
  | succ k =>
      rw [hsNewFuncs]
      rw [h k rfl, childrenSetF_empty, suppInSet_empty, Finset.empty_sdiff,
        Finset.filter_empty]

theorem functionsToDeactivate_empty (dd : MeshData) (s : HSState) (hmNew : HMState)
    (marked : ℕ → Finset Cell) (lv : ℕ) (h : marked lv = ∅) :
    functionsToDeactivate dd s hmNew marked lv = ∅ := by
  rw [functionsToDeactivate, if_pos h]

theorem hsFunFold_spec (dd : MeshData) (hmNew : HMState) (marked mf : ℕ → Finset Cell)
    (a d : ℕ → Finset Cell) (m : ℕ) :
    (∀ l, l < m → ((List.range m).foldl (hsFunStep dd hmNew marked mf) (a, d)).1 l
        = hsRefineActfun dd hmNew marked mf a l) ∧
    (∀ l, m < l → ((List.range m).foldl (hsFunStep dd hmNew marked mf) (a, d)).1 l = a l) ∧
    (0 < m → ((List.range m).foldl (hsFunStep dd hmNew marked mf) (a, d)).1 m
        = a m ∪ hsNewFuncs dd hmNew marked a m) ∧
    (m = 0 → ((List.range m).foldl (hsFunStep dd hmNew marked mf) (a, d)).1 0 = a 0) ∧
    (∀ l, l < m → ((List.range m).foldl (hsFunStep dd hmNew marked mf) (a, d)).2 l
        = d l ∪ mf l) ∧
    (∀ l, m ≤ l → ((List.range m).foldl (hsFunStep dd hmNew marked mf) (a, d)).2 l = d l) := by
  induction m with
  | zero =>
      refine ⟨fun l hl => absurd hl (by omega), fun l _ => rfl, fun h => absurd h (by omega),
        fun _ => rfl, fun l hl => absurd hl (by omega), fun l _ => rfl⟩
  | succ m ih =>
      obtain ⟨ihAlt, ihAgt, ihAeq, ihA0, ihDlt, ihDge⟩ := ih
      have hfold : (List.range (m + 1)).foldl (hsFunStep dd hmNew marked mf) (a, d)
          = hsFunStep dd hmNew marked mf
            ((List.range m).foldl (hsFunStep dd hmNew marked mf) (a, d)) m := by
        rw [List.range_succ, List.foldl_append, List.foldl_cons, List.foldl_nil]
      set st := (List.range m).foldl (hsFunStep dd hmNew marked mf) (a, d) with hst
      have hstm : st.1 m = (if 0 < m then a m ∪ hsNewFuncs dd hmNew marked a m else a m) := by
        by_cases h : 0 < m
        · rw [if_pos h]; exact ihAeq h
        · rw [if_neg h]
          have hm0 : m = 0 := by omega
          subst hm0; exact ihA0 rfl
      have hstm1 : st.1 (m + 1) = a (m + 1) := ihAgt (m + 1) (by omega)
      refine ⟨?_, ?_, ?_, ?_, ?_, ?_⟩
      · intro l hl
        rw [hfold]
        show (Function.update (Function.update st.1 m (st.1 m \ mf m)) (m + 1) _) l = _
        rcases Nat.lt_succ_iff_lt_or_eq.mp hl with h | h
        · rw [Function.update_noteq (by omega), Function.update_noteq (by omega)]
          exact ihAlt l h
        · subst h
          rw [Function.update_noteq (by omega), Function.update_same, hstm]
          by_cases h0 : 0 < l
          · rw [if_pos h0]; rfl
          · have hl0 : l = 0 := by omega
            subst hl0
            rw [if_neg h0]
            show a 0 \ mf 0 = (a 0 ∪ hsNewFuncs dd hmNew marked a 0) \ mf 0
            rw [show hsNewFuncs dd hmNew marked a 0 = ∅ from rfl, Finset.union_empty]
      · intro l hl
        rw [hfold]
        show (Function.update (Function.update st.1 m (st.1 m \ mf m)) (m + 1) _) l = _
        rw [Function.update_noteq (by omega), Function.update_noteq (by omega)]
        exact ihAgt l (by omega)
      · intro _
        rw [hfold]
        show (Function.update (Function.update st.1 m (st.1 m \ mf m)) (m + 1)
          (Function.update st.1 m (st.1 m \ mf m) (m + 1) ∪ _)) (m + 1) = _
        rw [Function.update_same, Function.update_noteq (by omega), hstm1]
        rfl
      · intro h
        exact absurd h (by omega)
      · intro l hl
        rw [hfold]
        show (Function.update st.2 m (st.2 m ∪ mf m)) l = _
        rcases Nat.lt_succ_iff_lt_or_eq.mp hl with h | h
        · rw [Function.update_noteq (by omega)]
          exact ihDlt l h
        · subst h
          rw [Function.update_same, ihDge l (by omega)]
      · intro l hl
        rw [hfold]
        show (Function.update st.2 m (st.2 m ∪ mf m)) l = _
        rw [Function.update_noteq (by omega)]
        exact ihDge l (by omega)

theorem hsRefineCore_hm (dd : MeshData) (s : HSState) (marked : ℕ → Finset Cell)
    (maxlv : ℕ) : (hsRefineCore dd s marked maxlv).hm = hmRefine s.hm marked maxlv := rfl

theorem hsRefineCore_actfun (dd : MeshData) (s : HSState) (marked : ℕ → Finset Cell)
    (maxlv : ℕ) (hbd : ∀ l, maxlv < l → marked l = ∅) (l : ℕ) :
    (hsRefineCore dd s marked maxlv).actfun l
      = hsRefineActfun dd (hmRefine s.hm marked maxlv) marked
          (functionsToDeactivate dd s (hmRefine s.hm marked maxlv) marked) s.actfun l := by
  set hmNew := hmRefine s.hm marked maxlv with hhm
  set mf := functionsToDeactivate dd s hmNew marked with hmf
  have hL : hmNew.numLevels = max s.hm.numLevels (maxlv + 2) := rfl
  set m := hmNew.numLevels - 1 with hm
  have hm1 : maxlv + 1 ≤ m := by rw [hm, hL]; omega
  have spec := hsFunFold_spec dd hmNew marked mf s.actfun s.deactfun m
  show ((List.range m).foldl (hsFunStep dd hmNew marked mf) (s.actfun, s.deactfun)).1 l = _
  rcases lt_trichotomy l m with h | h | h
  · exact spec.1 l h
  · subst h
    rw [spec.2.2.1 (by omega)]
    rw [hsRefineActfun]
    have hmfm : mf m = ∅ :=
      functionsToDeactivate_empty dd s hmNew marked m (hbd m (by omega))
    rw [hmfm, Finset.sdiff_empty]
  · rw [spec.2.1 l h]
    rw [hsRefineActfun]
    have hnf : hsNewFuncs dd hmNew marked s.actfun l = ∅ := by
      refine hsNewFuncs_empty_of_marked dd hmNew marked s.actfun l ?_
      intro k hk
      exact hbd k (by omega)
    have hmfl : mf l = ∅ := functionsToDeactivate_empty dd s hmNew marked l (hbd l (by omega))
    rw [hnf, hmfl, Finset.union_empty, Finset.sdiff_empty]

theorem hsRefineCore_deactfun (dd : MeshData) (s : HSState) (marked : ℕ → Finset Cell)
    (maxlv : ℕ) (hbd : ∀ l, maxlv < l → marked l = ∅) (l : ℕ) :
    (hsRefineCore dd s marked maxlv).deactfun l
      = s.deactfun l ∪ functionsToDeactivate dd s (hmRefine s.hm marked maxlv) marked l := by
  set hmNew := hmRefine s.hm marked maxlv with hhm
  set mf := functionsToDeactivate dd s hmNew marked with hmf
  have hL : hmNew.numLevels = max s.hm.numLevels (maxlv + 2) := rfl
  set m := hmNew.numLevels - 1 with hm
  have hm1 : maxlv + 1 ≤ m := by rw [hm, hL]; omega
  have spec := hsFunFold_spec dd hmNew marked mf s.actfun s.deactfun m
  show ((List.range m).foldl (hsFunStep dd hmNew marked mf) (s.actfun, s.deactfun)).2 l = _
  rcases lt_or_ge l m with h | h
  · exact spec.2.2.2.2.1 l h
  · rw [spec.2.2.2.2.2 l h]
    have hmfl : mf l = ∅ := functionsToDeactivate_empty dd s hmNew marked l (hbd l (by omega))
    rw [hmfl, Finset.union_empty]

/-- Membership form of `hmRefine_active`. -/
theorem hmRefine_active_mem (s : HMState) (marked : ℕ → Finset Cell) (maxlv : ℕ)
    (hbd : ∀ l, maxlv < l → marked l = ∅) (l : ℕ) (c : Cell) :
    c ∈ (hmRefine s marked maxlv).active l ↔
      ((c ∈ s.active l ∨ (0 < l ∧ cellParent c ∈ marked (l - 1))) ∧ c ∉ marked l) := by
  rw [hmRefine_active s marked maxlv hbd l]
  cases l with
  | zero => simp [hmRefineActive, Finset.mem_sdiff]
  | succ k =>
      simp only [hmRefineActive, Finset.mem_sdiff, Finset.mem_union, mem_childrenSetF]
      constructor
      · rintro ⟨h1 | h1, h2⟩
        · exact ⟨Or.inl h1, h2⟩
        · exact ⟨Or.inr ⟨by omega, by simpa using h1⟩, h2⟩
      · rintro ⟨h1 | h1, h2⟩
        · exact ⟨Or.inl h1, h2⟩
        · exact ⟨Or.inr (by simpa using h1.2), h2⟩

/-- Membership form of `hmRefine_deactivated`. -/
theorem hmRefine_deactivated_mem (s : HMState) (marked : ℕ → Finset Cell) (maxlv : ℕ)
    (hbd : ∀ l, maxlv < l → marked l = ∅) (l : ℕ) (c : Cell) :
    c ∈ (hmRefine s marked maxlv).deactivated l ↔ (c ∈ s.deactivated l ∨ c ∈ marked l) := by
  rw [hmRefine_deactivated s marked maxlv hbd l]
  simp [Finset.mem_union]

/-! ## Disparity-driven mark expansion (`_cell_neighborhood`, `_mark_recursive`) -/

/-- `HSpace.cell_support_extension(l, cells, k)`: support of the level-`k`
functions supported in the level-`k` ancestors of `cells`. -/
def cellSupportExtension (dd : MeshData) (l : ℕ) (cells : Finset Cell) (k : ℕ) :
    Finset Cell :=
  suppSet dd k (suppInSet dd k (cells.image (iterParent (l - k))))

/-- `HSpace._cell_neighborhood(l, cells, truncate)` for disparity `disp`. -/
def cellNeighborhood (dd : MeshData) (s : HSState) (disp l : ℕ) (cells : Finset Cell)
    (tr : Bool) : Finset Cell :=
  if l < disp then ∅
  else if tr then
    s.hm.active (l - disp) ∩
      (cellSupportExtension dd l cells (l - disp + 1)).image cellParent
  else s.hm.active (l - disp) ∩ cellSupportExtension dd l cells (l - disp)

/-- Recursive cascade of `_mark_recursive`; the recursive call in the source
passes no `truncate` flag, so the cascade always uses the plain neighborhood.
The fuel bounds the recursion depth (the level decreases by `disp ≥ 1` per
step; the Python recursion does not terminate for `disp = 0`). -/
def markRecAux (dd : MeshData) (s : HSState) (disp : ℕ) :
    ℕ → ℕ → (ℕ → Finset Cell) → (ℕ → Finset Cell)
  | 0, _, marked => marked
  | fuel + 1, l, marked =>
      let nb := cellNeighborhood dd s disp l (marked l) false
      if nb = ∅ then marked
      else markRecAux dd s disp fuel (l - disp)
        (Function.update marked (l - disp) (marked (l - disp) ∪ nb))

/-- `HSpace._mark_recursive(l, marked, truncate)`: one neighborhood step with
the given truncation flag, then the plain cascade. -/
def markRecursive (dd : MeshData) (s : HSState) (disp l : ℕ)
    (marked : ℕ → Finset Cell) (tr : Bool) : ℕ → Finset Cell :=
  let nb := cellNeighborhood dd s disp l (marked l) tr
  if nb = ∅ then marked
  else markRecAux dd s disp (l + 1) (l - disp)
    (Function.update marked (l - disp) (marked (l - disp) ∪ nb))

/-- The mark-expansion loop of `HSpace.refine`: `_mark_recursive(l, marked)`
for every level of the (already extended) hierarchy. -/
def expandMarked (dd : MeshData) (s : HSState) (disp : ℕ)
    (marked : ℕ → Finset Cell) (L : ℕ) (tr : Bool) : ℕ → Finset Cell :=
  (List.range L).foldl (fun mk l => markRecursive dd s disp l mk tr) marked

/-- `HSpace.refine(marked, truncate)`: ensure the levels, expand the marks if
the disparity is finite (`disp = none` models `disparity = inf`), then run the
core refinement. -/
def hsRefine (dd : MeshData) (disp : Option ℕ) (s : HSState)
    (marked : ℕ → Finset Cell) (maxlv : ℕ) (tr : Bool) : HSState :=
  let L := max s.hm.numLevels (maxlv + 2)
  let marked2 := match disp with
    | none => marked
    | some dv => expandMarked dd s dv marked L tr
  hsRefineCore dd s marked2 maxlv

/-- Refinement sequences of `HSpace.refine` in which every marked cell is
active on its level at call time. -/
inductive ReachableHS (dd : MeshData) (disp : Option ℕ) : HSState → Prop where
  | init : ReachableHS dd disp (hsInit dd)
  | step (s : HSState) (marked : ℕ → Finset Cell) (maxlv : ℕ) (tr : Bool) :
      ReachableHS dd disp s →
      (∀ l, marked l ⊆ s.hm.active l) →
      (∀ l, maxlv < l → marked l = ∅) →
      ReachableHS dd disp (hsRefine dd disp s marked maxlv tr)

/-- Refinement sequences in which additionally every call uses
`truncate=False`. -/
inductive ReachableHSNT (dd : MeshData) (disp : Option ℕ) : HSState → Prop where
  | init : ReachableHSNT dd disp (hsInit dd)
  | step (s : HSState) (marked : ℕ → Finset Cell) (maxlv : ℕ) :
      ReachableHSNT dd disp s →
      (∀ l, marked l ⊆ s.hm.active l) →
      (∀ l, maxlv < l → marked l = ∅) →
      ReachableHSNT dd disp (hsRefine dd disp s marked maxlv false)

theorem cellNeighborhood_subset_active (dd : MeshData) (s : HSState) (disp l : ℕ)
    (cells : Finset Cell) (tr : Bool) :
    cellNeighborhood dd s disp l cells tr ⊆ s.hm.active (l - disp) := by
  rw [cellNeighborhood]
  by_cases h1 : l < disp
  · rw [if_pos h1]; exact Finset.empty_subset _
  · rw [if_neg h1]
    cases tr with
    | true => rw [if_pos rfl]; exact Finset.inter_subset_left
    | false => rw [if_neg (by simp)]; exact Finset.inter_subset_left

theorem cellNeighborhood_empty_of_empty (dd : MeshData) (s : HSState) (disp l : ℕ)
    (tr : Bool) : cellNeighborhood dd s disp l ∅ tr = ∅ := by
  rw [cellNeighborhood]
  by_cases h1 : l < disp
  · rw [if_pos h1]
  · rw [if_neg h1]
    cases tr with
    | true =>
        rw [if_pos rfl]
        rw [show cellSupportExtension dd l ∅ (l - disp + 1) = ∅ from rfl]
        simp
    | false =>
        rw [if_neg (by simp)]
        rw [show cellSupportExtension dd l ∅ (l - disp) = ∅ from rfl]
        simp

/-- The mark expansion preserves the side conditions of a refine call:
expanded marks are still active cells, and no marks appear above `maxlv`. -/
theorem markRecAux_preserves (dd : MeshData) (s : HSState) (disp : ℕ) (maxlv : ℕ) :
    ∀ fuel l marked,
      (∀ j, marked j ⊆ s.hm.active j) → (∀ j, maxlv < j → marked j = ∅) →
      (∀ j, markRecAux dd s disp fuel l marked j ⊆ s.hm.active j) ∧
      (∀ j, maxlv < j → markRecAux dd s disp fuel l marked j = ∅) := by
  intro fuel
  induction fuel with
  | zero => intro l marked h1 h2; exact ⟨h1, h2⟩
  | succ fuel ih =>
      intro l marked h1 h2
      rw [markRecAux]
      by_cases hnb : cellNeighborhood dd s disp l (marked l) false = ∅
      · rw [if_pos hnb]; exact ⟨h1, h2⟩
      · rw [if_neg hnb]
        have hml : marked l ≠ ∅ := by
          intro hml
          rw [hml, cellNeighborhood_empty_of_empty] at hnb
          exact hnb rfl
        have hlmax : l ≤ maxlv := by
          by_contra hc
          exact hml (h2 l (by omega))
        refine ih (l - disp) _ ?_ ?_
        · intro j
          by_cases hj : j = l - disp
          · subst hj
            rw [Function.update_same]
            exact Finset.union_subset (h1 _) (cellNeighborhood_subset_active dd s disp l _ false)
          · rw [Function.update_noteq hj]
            exact h1 j
        · intro j hj
          by_cases hje : j = l - disp
          · subst hje; omega
          · rw [Function.update_noteq hje]
            exact h2 j hj

theorem markRecursive_preserves (dd : MeshData) (s : HSState) (disp : ℕ) (maxlv : ℕ)
    (l : ℕ) (marked : ℕ → Finset Cell) (tr : Bool)
    (h1 : ∀ j, marked j ⊆ s.hm.active j) (h2 : ∀ j, maxlv < j → marked j = ∅) :
    (∀ j, markRecursive dd s disp l marked tr j ⊆ s.hm.active j) ∧
    (∀ j, maxlv < j → markRecursive dd s disp l marked tr j = ∅) := by
  rw [markRecursive]
  by_cases hnb : cellNeighborhood dd s disp l (marked l) tr = ∅
  · rw [if_pos hnb]; exact ⟨h1, h2⟩
  · rw [if_neg hnb]
    have hml : marked l ≠ ∅ := by
      intro hml
      rw [hml, cellNeighborhood_empty_of_empty] at hnb
      exact hnb rfl
    have hlmax : l ≤ maxlv := by
      by_contra hc
      exact hml (h2 l (by omega))
    refine markRecAux_preserves dd s disp maxlv (l + 1) (l - disp) _ ?_ ?_
    · intro j
      by_cases hj : j = l - disp
      · subst hj
        rw [Function.update_same]
        exact Finset.union_subset (h1 _) (cellNeighborhood_subset_active dd s disp l _ tr)
      · rw [Function.update_noteq hj]
        exact h1 j
    · intro j hj
      by_cases hje : j = l - disp
      · subst hje; omega
      · rw [Function.update_noteq hje]
        exact h2 j hj

theorem expandMarked_preserves (dd : MeshData) (s : HSState) (disp : ℕ) (maxlv : ℕ)
    (marked : ℕ → Finset Cell) (L : ℕ) (tr : Bool)
    (h1 : ∀ j, marked j ⊆ s.hm.active j) (h2 : ∀ j, maxlv < j → marked j = ∅) :
    (∀ j, expandMarked dd s disp marked L tr j ⊆ s.hm.active j) ∧
    (∀ j, maxlv < j → expandMarked dd s disp marked L tr j = ∅) := by
  rw [expandMarked]
  induction L generalizing marked with
  | zero => exact ⟨h1, h2⟩
  | succ n ih =>
      rw [List.range_succ, List.foldl_append, List.foldl_cons, List.foldl_nil]
      set mk := (List.range n).foldl (fun mk l => markRecursive dd s disp l mk tr) marked
        with hmk
      have hprev := ih marked h1 h2
      exact markRecursive_preserves dd s disp maxlv n mk tr hprev.1 hprev.2

/-! ## HSpace invariants under refinement (claims C2, C5) -/

theorem mem_functionsToDeactivate (dd : MeshData) (s : HSState) (hmNew : HMState)
    (marked : ℕ → Finset Cell) (l : ℕ) (f : Cell) :
    f ∈ functionsToDeactivate dd s hmNew marked l ↔
      (marked l ≠ ∅ ∧ f ∈ suppInSet dd l (marked l) ∧ f ∈ s.actfun l ∧
        dd.supp l f ∩ hmNew.active l = ∅) := by
  rw [functionsToDeactivate]
  by_cases h : marked l = ∅
  · rw [if_pos h]
    simp [h]
  · rw [if_neg h]
    rw [Finset.mem_filter, Finset.mem_inter]
    tauto

theorem mem_hsNewFuncs_succ (dd : MeshData) (hmNew : HMState)
    (marked aPre : ℕ → Finset Cell) (k : ℕ) (f : Cell) :
    f ∈ hsNewFuncs dd hmNew marked aPre (k + 1) ↔
      (f ∈ suppInSet dd (k + 1) (childrenSetF (marked k)) ∧ f ∉ aPre (k + 1) ∧
        dd.supp (k + 1) f ⊆ hmNew.active (k + 1) ∪ hmNew.deactivated (k + 1)) := by
  rw [hsNewFuncs, Finset.mem_filter, Finset.mem_sdiff]
  tauto

theorem mem_suppInSet (dd : MeshData) (l : ℕ) (cs : Finset Cell) (f : Cell) :
    f ∈ suppInSet dd l cs ↔ ∃ c ∈ cs, f ∈ dd.suppIn l c := by
  rw [suppInSet, Finset.mem_biUnion]

/-- Invariants of the hierarchical space maintained by `HSpace.refine`. -/
structure HSInv (dd : MeshData) (s : HSState) : Prop where
  cellInv : HMInv dd.cells0 s.hm
  fdisj : ∀ l, s.actfun l ∩ s.deactfun l = ∅
  repIff : ∀ l f, f ∈ s.actfun l ∪ s.deactfun l ↔
      (f ∈ dd.allFuncs l ∧ dd.supp l f ⊆ s.hm.active l ∪ s.hm.deactivated l)
  actSupp : ∀ l f, f ∈ s.actfun l → (dd.supp l f ∩ s.hm.active l).Nonempty
  deactSupp : ∀ l f, f ∈ s.deactfun l → dd.supp l f ∩ s.hm.active l = ∅
  fbeyond : ∀ l, s.hm.numLevels ≤ l → s.actfun l = ∅ ∧ s.deactfun l = ∅

theorem hsInit_inv (dd : MeshData) (hL : MeshLaws dd) : HSInv dd (hsInit dd) := by
  have hrep0 : (hsInit dd).hm.active 0 ∪ (hsInit dd).hm.deactivated 0 = dd.cells0 := by
    show (if (0 : ℕ) = 0 then dd.cells0 else ∅) ∪ ∅ = dd.cells0
    simp
  refine ⟨hmInit_inv dd.cells0, ?_, ?_, ?_, ?_, ?_⟩
  · intro l
    show (if l = 0 then dd.allFuncs 0 else ∅) ∩ ∅ = ∅
    simp
  · intro l f
    by_cases h : l = 0
    · subst h
      rw [hrep0]
      show f ∈ (dd.allFuncs 0) ∪ ∅ ↔ _
      rw [Finset.union_empty]
      constructor
      · intro hf
        refine ⟨hf, ?_⟩
        have := hL.suppSub 0 f hf
        simpa [allCellsFrom] using this
      · intro hf; exact hf.1
    · constructor
      · intro hf
        exfalso
        revert hf
        show f ∈ (if l = 0 then dd.allFuncs 0 else ∅) ∪ ∅ → False
        rw [if_neg h]
        simp
      · rintro ⟨hf, hsub⟩
        exfalso
        obtain ⟨c, hc⟩ := hL.suppNE l f hf
        have := hsub hc
        revert this
        show c ∈ (hmInit dd.cells0).active l ∪ (hmInit dd.cells0).deactivated l → False
        show c ∈ (if l = 0 then dd.cells0 else ∅) ∪ ∅ → False
        rw [if_neg h]
        simp
  · intro l f hf
    have hl0 : l = 0 := by
      by_contra h
      revert hf
      show f ∈ (if l = 0 then dd.allFuncs 0 else ∅) → False
      rw [if_neg h]
      simp
    subst hl0
    have hf0 : f ∈ dd.allFuncs 0 := by
      revert hf
      show f ∈ (if (0:ℕ) = 0 then dd.allFuncs 0 else ∅) → _
      simp
    obtain ⟨c, hc⟩ := hL.suppNE 0 f hf0
    refine ⟨c, Finset.mem_inter.mpr ⟨hc, ?_⟩⟩
    show c ∈ (if (0:ℕ) = 0 then dd.cells0 else ∅)
    rw [if_pos rfl]
    have := hL.suppSub 0 f hf0
    exact (by simpa [allCellsFrom] using this : dd.supp 0 f ⊆ dd.cells0) hc
  · intro l f hf
    exact absurd hf (by simp [hsInit])
  · intro l hl
    have hl1 : 1 ≤ l := hl
    constructor
    · show (if l = 0 then dd.allFuncs 0 else ∅) = ∅
      rw [if_neg (by omega)]
    · rfl

theorem hsRefineCore_inv {dd : MeshData} (hL : MeshLaws dd) {s : HSState}
    (hInv : HSInv dd s) {marked : ℕ → Finset Cell} {maxlv : ℕ}
    (hsub : ∀ l, marked l ⊆ s.hm.active l) (hbd : ∀ l, maxlv < l → marked l = ∅) :
    HSInv dd (hsRefineCore dd s marked maxlv) := by
  set hmNew := hmRefine s.hm marked maxlv with hhm
  set mf := functionsToDeactivate dd s hmNew marked with hmfdef
  set NF := hsNewFuncs dd hmNew marked s.actfun with hNFdef
  have hcell : HMInv dd.cells0 hmNew := hmRefine_inv hInv.cellInv hsub hbd
  have hAmem := hmRefine_active_mem s.hm marked maxlv hbd
  have hDmem := hmRefine_deactivated_mem s.hm marked maxlv hbd
  have hFA : ∀ l, (hsRefineCore dd s marked maxlv).actfun l
      = (s.actfun l ∪ NF l) \ mf l := by
    intro l
    rw [hsRefineCore_actfun dd s marked maxlv hbd l]
    rfl
  have hFD : ∀ l, (hsRefineCore dd s marked maxlv).deactfun l
      = s.deactfun l ∪ mf l := fun l => hsRefineCore_deactfun dd s marked maxlv hbd l
  have hdisjC : ∀ j x, x ∈ s.hm.active j → x ∉ s.hm.deactivated j := by
    intro j x h1 h2
    have := hInv.cellInv.disj j
    rw [Finset.eq_empty_iff_forall_not_mem] at this
    exact this x (Finset.mem_inter.mpr ⟨h1, h2⟩)
  have hfdisjO : ∀ j x, x ∈ s.actfun j → x ∉ s.deactfun j := by
    intro j x h1 h2
    have := hInv.fdisj j
    rw [Finset.eq_empty_iff_forall_not_mem] at this
    exact this x (Finset.mem_inter.mpr ⟨h1, h2⟩)
  have hfresh : ∀ k c, cellParent c ∈ marked k →
      c ∉ s.hm.active (k + 1) ∪ s.hm.deactivated (k + 1) := by
    intro k c hp hrep
    have hd := hInv.cellInv.parentDeact k c hrep
    exact hdisjC k (cellParent c) (hsub k hp) hd
  have hNF0 : NF 0 = ∅ := rfl
  have hNFnewcell : ∀ k f, f ∈ NF (k + 1) → ∃ c, c ∈ dd.supp (k + 1) f ∧
      cellParent c ∈ marked k ∧ c ∉ s.hm.active (k + 1) ∪ s.hm.deactivated (k + 1) ∧
      c ∈ hmNew.active (k + 1) := by
    intro k f hf
    obtain ⟨h1, h2, h3⟩ := (mem_hsNewFuncs_succ dd hmNew marked s.actfun k f).mp hf
    obtain ⟨c, hcch, hcin⟩ := (mem_suppInSet dd (k + 1) _ f).mp h1
    have hpar : cellParent c ∈ marked k := mem_childrenSetF.mp hcch
    have hnrep := hfresh k c hpar
    have hcsupp : c ∈ dd.supp (k + 1) f := ((hL.galois _ _ _).mp hcin).2
    have hcact : c ∈ hmNew.active (k + 1) := by
      rw [hAmem]
      refine ⟨Or.inr ⟨by omega, by simpa using hpar⟩, ?_⟩
      intro hmk
      exact hnrep (Finset.mem_union_left _ (hsub _ hmk))
    exact ⟨c, hcsupp, hpar, hnrep, hcact⟩
  have hNFfuncs : ∀ l f, f ∈ NF l → f ∈ dd.allFuncs l ∧
      dd.supp l f ⊆ hmNew.active l ∪ hmNew.deactivated l := by
    intro l f hf
    cases l with
    | zero => exact absurd hf (by rw [hNF0]; simp)
    | succ k =>
        obtain ⟨h1, h2, h3⟩ := (mem_hsNewFuncs_succ dd hmNew marked s.actfun k f).mp hf
        obtain ⟨c, -, hcin⟩ := (mem_suppInSet dd (k + 1) _ f).mp h1
        exact ⟨((hL.galois _ _ _).mp hcin).1, h3⟩
  have hrepmono : ∀ l c, c ∈ s.hm.active l ∪ s.hm.deactivated l →
      c ∈ hmNew.active l ∪ hmNew.deactivated l := by
    intro l c hc
    rw [Finset.mem_union, hAmem l c, hDmem l c]
    rcases Finset.mem_union.mp hc with h | h
    · by_cases hm : c ∈ marked l
      · exact Or.inr (Or.inr hm)
      · exact Or.inl ⟨Or.inl h, hm⟩
    · exact Or.inr (Or.inl h)
  refine ⟨hcell, ?_, ?_, ?_, ?_, ?_⟩
  · -- active and deactivated functions stay disjoint
    intro l
    rw [Finset.eq_empty_iff_forall_not_mem]
    intro f hf
    rw [Finset.mem_inter, hFA l, hFD l, Finset.mem_sdiff, Finset.mem_union,
      Finset.mem_union] at hf
    obtain ⟨⟨h1, h2⟩, h3⟩ := hf
    rcases h3 with h3 | h3
    · rcases h1 with h1 | h1
      · exact hfdisjO l f h1 h3
      · cases l with
        | zero => exact absurd h1 (by rw [hNF0]; simp)
        | succ k =>
            obtain ⟨c, hcs, -, hnrep, -⟩ := hNFnewcell k f h1
            have := (hInv.repIff (k + 1) f).mp (Finset.mem_union_right _ h3)
            exact hnrep (this.2 hcs)
    · exact h2 h3
  · -- a function is represented iff its support is represented
    intro l f
    rw [Finset.mem_union, hFA l, hFD l, Finset.mem_sdiff, Finset.mem_union,
      Finset.mem_union]
    constructor
    · rintro (⟨h1 | h1, -⟩ | h1 | h1)
      · have := (hInv.repIff l f).mp (Finset.mem_union_left _ h1)
        exact ⟨this.1, fun c hc => hrepmono l c (this.2 hc)⟩
      · exact hNFfuncs l f h1
      · have := (hInv.repIff l f).mp (Finset.mem_union_right _ h1)
        exact ⟨this.1, fun c hc => hrepmono l c (this.2 hc)⟩
      · have h2 := ((mem_functionsToDeactivate dd s hmNew marked l f).mp h1).2.2.1
        have := (hInv.repIff l f).mp (Finset.mem_union_left _ h2)
        exact ⟨this.1, fun c hc => hrepmono l c (this.2 hc)⟩
    · rintro ⟨hfun, hsupp⟩
      by_cases hold : dd.supp l f ⊆ s.hm.active l ∪ s.hm.deactivated l
      · have hrep : f ∈ s.actfun l ∪ s.deactfun l := (hInv.repIff l f).mpr ⟨hfun, hold⟩
        rcases Finset.mem_union.mp hrep with h | h
        · by_cases hmf : f ∈ mf l
          · exact Or.inr (Or.inr hmf)
          · exact Or.inl ⟨Or.inl h, hmf⟩
        · exact Or.inr (Or.inl h)
      · rw [Finset.not_subset] at hold
        obtain ⟨c, hcs, hcnew⟩ := hold
        have hcrep : c ∈ hmNew.active l ∪ hmNew.deactivated l := hsupp hcs
        have hcase : 0 < l ∧ cellParent c ∈ marked (l - 1) := by
          rw [Finset.mem_union, hAmem, hDmem] at hcrep
          rcases hcrep with ⟨hh, -⟩ | hh
          · rcases hh with hh | hh
            · exact absurd (Finset.mem_union_left _ hh) hcnew
            · exact hh
          · rcases hh with hh | hh
            · exact absurd (Finset.mem_union_right _ hh) hcnew
            · exact absurd (Finset.mem_union_left _ (hsub l hh)) hcnew
        obtain ⟨hl0, hpar⟩ := hcase
        obtain ⟨k, rfl⟩ : ∃ k, l = k + 1 := ⟨l - 1, by omega⟩
        have hfsupp : f ∈ suppInSet dd (k + 1) (childrenSetF (marked k)) := by
          rw [mem_suppInSet]
          exact ⟨c, mem_childrenSetF.mpr (by simpa using hpar),
            (hL.galois _ _ _).mpr ⟨hfun, hcs⟩⟩
        by_cases hmf : f ∈ mf (k + 1)
        · exact Or.inr (Or.inr hmf)
        · by_cases hact : f ∈ s.actfun (k + 1)
          · exact Or.inl ⟨Or.inl hact, hmf⟩
          · exact Or.inl ⟨Or.inr ((mem_hsNewFuncs_succ dd hmNew marked s.actfun k f).mpr
              ⟨hfsupp, hact, hsupp⟩), hmf⟩
  · -- every active function keeps an active support cell
    intro l f hf
    rw [hFA l, Finset.mem_sdiff, Finset.mem_union] at hf
    obtain ⟨h1, hnot⟩ := hf
    rcases h1 with h1 | h1
    · by_contra hempty
      rw [Finset.not_nonempty_iff_eq_empty] at hempty
      obtain ⟨c, hc⟩ := hInv.actSupp l f h1
      rw [Finset.mem_inter] at hc
      have hcnot : c ∉ hmNew.active l := by
        intro hcn
        rw [Finset.eq_empty_iff_forall_not_mem] at hempty
        exact hempty c (Finset.mem_inter.mpr ⟨hc.1, hcn⟩)
      have hcmk : c ∈ marked l := by
        by_contra hcm
        exact hcnot ((hAmem l c).mpr ⟨Or.inl hc.2, hcm⟩)
      apply hnot
      rw [hmfdef, mem_functionsToDeactivate]
      refine ⟨?_, ?_, h1, hempty⟩
      · intro hh
        rw [hh] at hcmk
        exact absurd hcmk (Finset.not_mem_empty c)
      · rw [mem_suppInSet]
        refine ⟨c, hcmk, (hL.galois _ _ _).mpr ⟨?_, hc.1⟩⟩
        exact ((hInv.repIff l f).mp (Finset.mem_union_left _ h1)).1
    · cases l with
      | zero => exact absurd h1 (by rw [hNF0]; simp)
      | succ k =>
          obtain ⟨c, hcs, -, -, hcact⟩ := hNFnewcell k f h1
          exact ⟨c, Finset.mem_inter.mpr ⟨hcs, hcact⟩⟩
  · -- deactivated functions have no active support cell
    intro l f hf
    rw [hFD l, Finset.mem_union] at hf
    rcases hf with hf | hf
    · rw [Finset.eq_empty_iff_forall_not_mem]
      intro c hc
      rw [Finset.mem_inter] at hc
      have hsupold : dd.supp l f ⊆ s.hm.active l ∪ s.hm.deactivated l :=
        ((hInv.repIff l f).mp (Finset.mem_union_right _ hf)).2
      have hAold := hInv.deactSupp l f hf
      rcases ((hAmem l c).mp hc.2).1 with h | h
      · rw [Finset.eq_empty_iff_forall_not_mem] at hAold
        exact hAold c (Finset.mem_inter.mpr ⟨hc.1, h⟩)
      · obtain ⟨hl0, hpar⟩ := h
        obtain ⟨k, rfl⟩ : ∃ k, l = k + 1 := ⟨l - 1, by omega⟩
        exact hfresh k c (by simpa using hpar) (hsupold hc.1)
    · exact ((mem_functionsToDeactivate dd s hmNew marked l f).mp hf).2.2.2
  · -- nothing beyond the new level count
    intro l hl
    have hl2 : max s.hm.numLevels (maxlv + 2) ≤ l := hl
    have hm1 := le_max_left s.hm.numLevels (maxlv + 2)
    have hm2 := le_max_right s.hm.numLevels (maxlv + 2)
    constructor
    · rw [hFA l, (hInv.fbeyond l (by omega)).1]
      have hnf : NF l = ∅ := by
        refine hsNewFuncs_empty_of_marked dd hmNew marked s.actfun l ?_
        intro k hk
        exact hbd k (by omega)
      rw [hnf]
      simp
    · have hmfl : mf l = ∅ :=
        functionsToDeactivate_empty dd s hmNew marked l (hbd l (by omega))
      rw [hFD l, (hInv.fbeyond l (by omega)).2, hmfl]
      simp

theorem reachableHS_inv {dd : MeshData} (hL : MeshLaws dd) {disp : Option ℕ} {s : HSState}
    (h : ReachableHS dd disp s) : HSInv dd s := by
  induction h with
  | init => exact hsInit_inv dd hL
  | step s marked maxlv tr _ hsub hbd ih =>
      cases disp with
      | none => exact hsRefineCore_inv hL ih hsub hbd
      | some dv =>
          have hpres := expandMarked_preserves dd s dv maxlv marked
            (max s.hm.numLevels (maxlv + 2)) tr hsub hbd
          exact hsRefineCore_inv hL ih hpres.1 hpres.2

theorem reachableHSNT_inv {dd : MeshData} (hL : MeshLaws dd) {disp : Option ℕ}
    {s : HSState} (h : ReachableHSNT dd disp s) : HSInv dd s := by
  induction h with
  | init => exact hsInit_inv dd hL
  | step s marked maxlv _ hsub hbd ih =>
      cases disp with
      | none => exact hsRefineCore_inv hL ih hsub hbd
      | some dv =>
          have hpres := expandMarked_preserves dd s dv maxlv marked
            (max s.hm.numLevels (maxlv + 2)) false hsub hbd
          exact hsRefineCore_inv hL ih hpres.1 hpres.2

/-- Effective (possibly disparity-expanded) marked dictionary of one
`HSpace.refine` call. -/
def effMarked (dd : MeshData) (disp : Option ℕ) (s : HSState)
    (marked : ℕ → Finset Cell) (maxlv : ℕ) (tr : Bool) : ℕ → Finset Cell :=
  match disp with
  | none => marked
  | some dv => expandMarked dd s dv marked (max s.hm.numLevels (maxlv + 2)) tr

theorem hsRefine_eq_core (dd : MeshData) (disp : Option ℕ) (s : HSState)
    (marked : ℕ → Finset Cell) (maxlv : ℕ) (tr : Bool) :
    hsRefine dd disp s marked maxlv tr
      = hsRefineCore dd s (effMarked dd disp s marked maxlv tr) maxlv := by
  cases disp <;> rfl

theorem effMarked_sub (dd : MeshData) (disp : Option ℕ) (s : HSState)
    (marked : ℕ → Finset Cell) (maxlv : ℕ) (tr : Bool)
    (hsub : ∀ l, marked l ⊆ s.hm.active l) (hbd : ∀ l, maxlv < l → marked l = ∅) :
    (∀ l, effMarked dd disp s marked maxlv tr l ⊆ s.hm.active l) ∧
    (∀ l, maxlv < l → effMarked dd disp s marked maxlv tr l = ∅) := by
  cases disp with
  | none => exact ⟨hsub, hbd⟩
  | some dv =>
      exact expandMarked_preserves dd s dv maxlv marked
        (max s.hm.numLevels (maxlv + 2)) tr hsub hbd

/-- C5: after every `HSpace.refine(marked)` call on a reachable state (the
marked cells being active at call time), a function of level `lv` that was
active before the call is moved to the deactivated set if and only if its
native-level support no longer intersects the active cells of level `lv`
(equivalently: every cell of its level-`lv` support has been deactivated). -/
theorem refine_function_deactivation_iff (dd : MeshData) (hL : MeshLaws dd)
    (disp : Option ℕ) (s : HSState) (h : ReachableHS dd disp s)
    (marked : ℕ → Finset Cell) (maxlv : ℕ) (tr : Bool)
    (hsub : ∀ l, marked l ⊆ s.hm.active l) (hbd : ∀ l, maxlv < l → marked l = ∅)
    (lv : ℕ) (f : Cell) (hact : f ∈ s.actfun lv) :
    f ∈ (hsRefine dd disp s marked maxlv tr).deactfun lv ↔
      dd.supp lv f ∩ (hsRefine dd disp s marked maxlv tr).hm.active lv = ∅ := by
  have hInv := reachableHS_inv hL h
  rw [hsRefine_eq_core]
  set mk2 := effMarked dd disp s marked maxlv tr with hmk2
  obtain ⟨hsub2, hbd2⟩ := effMarked_sub dd disp s marked maxlv tr hsub hbd
  rw [hsRefineCore_deactfun dd s mk2 maxlv hbd2 lv, hsRefineCore_hm]
  constructor
  · intro hf
    rcases Finset.mem_union.mp hf with hf | hf
    · exfalso
      have := hInv.fdisj lv
      rw [Finset.eq_empty_iff_forall_not_mem] at this
      exact this f (Finset.mem_inter.mpr ⟨hact, hf⟩)
    · exact ((mem_functionsToDeactivate dd s _ mk2 lv f).mp hf).2.2.2
  · intro hempty
    apply Finset.mem_union_right
    rw [mem_functionsToDeactivate]
    obtain ⟨c, hc⟩ := hInv.actSupp lv f hact
    rw [Finset.mem_inter] at hc
    have hcnot : c ∉ (hmRefine s.hm mk2 maxlv).active lv := by
      intro hcn
      rw [Finset.eq_empty_iff_forall_not_mem] at hempty
      exact hempty c (Finset.mem_inter.mpr ⟨hc.1, hcn⟩)
    have hcmk : c ∈ mk2 lv := by
      by_contra hcm
      exact hcnot ((hmRefine_active_mem s.hm mk2 maxlv hbd2 lv c).mpr ⟨Or.inl hc.2, hcm⟩)
    refine ⟨?_, ?_, hact, hempty⟩
    · intro hh
      rw [hh] at hcmk
      exact absurd hcmk (Finset.not_mem_empty c)
    · rw [mem_suppInSet]
      refine ⟨c, hcmk, (hL.galois _ _ _).mpr ⟨?_, hc.1⟩⟩
      exact ((hInv.repIff lv f).mp (Finset.mem_union_left _ hact)).1

/-! ## represent_fine(truncate=True) and the THB partition of unity (claim C2)

`represent_fine` assembles, for `lv` from finest to coarsest, the block
`T_lv[:, act_lv]`, where `T_{L-1} = I` and `T_lv = T_{lv+1} · Q_lv`; here
`Q_lv` is the level-`lv` (Kronecker-combined) prolongation with the rows of
the functions active on level `lv+1` zeroed (`Pj[act_indices[lv+1], :] = 0`,
the `truncate=True` branch).  The blocks are concatenated coarsest-first, one
column per active basis function, so applying the matrix to the all-ones
coefficient vector of length `numdofs` gives at fine index `j` the row sum
`rowSumRF`. -/

/-- Truncated prolongation `Q_l` of one level. -/
def truncP (dd : MeshData) (s : HSState) (l : ℕ) (j i : Cell) : ℚ :=
  if j ∈ s.actfun (l + 1) then 0 else dd.P l j i

/-- Running product of the loop in `represent_fine`: `tmatAux k` is the
matrix `P` after the iteration for level `L - 1 - k`. -/
def tmatAux (dd : MeshData) (s : HSState) : ℕ → Cell → Cell → ℚ
  | 0 => fun j i => if j = i then 1 else 0
  | k + 1 => fun j i =>
      ∑ mid ∈ dd.allFuncs (s.hm.numLevels - 1 - k),
        tmatAux dd s k j mid * truncP dd s (s.hm.numLevels - 2 - k) mid i

/-- Fine-level representation `T_l` of the level-`l` tensor-product basis. -/
def reprT (dd : MeshData) (s : HSState) (l : ℕ) : Cell → Cell → ℚ :=
  tmatAux dd s (s.hm.numLevels - 1 - l)

/-- Row `j` of `represent_fine(truncate=True)` summed over all columns: the
fine coefficient produced from the all-ones hierarchical coefficient vector. -/
def rowSumRF (dd : MeshData) (s : HSState) (j : Cell) : ℚ :=
  ∑ l ∈ Finset.range s.hm.numLevels, ∑ i ∈ s.actfun l, reprT dd s l j i

theorem reprT_step (dd : MeshData) (s : HSState) (l : ℕ)
    (hl : l + 1 ≤ s.hm.numLevels - 1) (j i : Cell) :
    reprT dd s l j i
      = ∑ mid ∈ dd.allFuncs (l + 1), reprT dd s (l + 1) j mid * truncP dd s l mid i := by
  have h1 : s.hm.numLevels - 1 - l = (s.hm.numLevels - 1 - (l + 1)) + 1 := by omega
  show tmatAux dd s (s.hm.numLevels - 1 - l) j i = _
  rw [h1]
  show (∑ mid ∈ dd.allFuncs (s.hm.numLevels - 1 - (s.hm.numLevels - 1 - (l + 1))),
      tmatAux dd s (s.hm.numLevels - 1 - (l + 1)) j mid
        * truncP dd s (s.hm.numLevels - 2 - (s.hm.numLevels - 1 - (l + 1))) mid i) = _
  rw [show s.hm.numLevels - 1 - (s.hm.numLevels - 1 - (l + 1)) = l + 1 by omega,
    show s.hm.numLevels - 2 - (s.hm.numLevels - 1 - (l + 1)) = l by omega]
  rfl

/-- Coefficient vector of the Horner evaluation of the sum of all truncated
active basis functions, level by level. -/
def gvec (dd : MeshData) (s : HSState) : ℕ → Cell → ℚ
  | 0 => fun i => if i ∈ s.actfun 0 then 1 else 0
  | m + 1 => fun j =>
      (∑ i ∈ dd.allFuncs m, truncP dd s m j i * gvec dd s m i) +
      (if j ∈ s.actfun (m + 1) then 1 else 0)

theorem actfun_subset_allFuncs {dd : MeshData} {s : HSState} (hInv : HSInv dd s) (l : ℕ) :
    s.actfun l ⊆ dd.allFuncs l := fun f hf =>
  ((hInv.repIff l f).mp (Finset.mem_union_left _ hf)).1

theorem rowSum_horner (dd : MeshData) (s : HSState) (hInv : HSInv dd s) :
    ∀ m, m ≤ s.hm.numLevels - 1 → ∀ j,
      (∑ l ∈ Finset.range (m + 1), ∑ i ∈ s.actfun l, reprT dd s l j i)
        = ∑ i ∈ dd.allFuncs m, reprT dd s m j i * gvec dd s m i := by
  intro m
  induction m with
  | zero =>
      intro _ j
      rw [Finset.sum_range_one]
      have hcong : ∀ i ∈ dd.allFuncs 0, reprT dd s 0 j i * gvec dd s 0 i
          = if i ∈ s.actfun 0 then reprT dd s 0 j i else 0 := by
        intro i _
        show reprT dd s 0 j i * (if i ∈ s.actfun 0 then 1 else 0) = _
        by_cases h : i ∈ s.actfun 0 <;> simp [h]
      rw [Finset.sum_congr rfl hcong, Finset.sum_ite_mem,
        (Finset.inter_eq_right).mpr (actfun_subset_allFuncs hInv 0)]
  | succ m ih =>
      intro hm j
      rw [Finset.sum_range_succ, ih (by omega) j]
      have hstep : ∀ i ∈ dd.allFuncs m, reprT dd s m j i * gvec dd s m i
          = ∑ mid ∈ dd.allFuncs (m + 1),
              reprT dd s (m + 1) j mid * truncP dd s m mid i * gvec dd s m i := by
        intro i _
        rw [reprT_step dd s m hm j i, Finset.sum_mul]
      rw [Finset.sum_congr rfl hstep, Finset.sum_comm]
      have hact : ∀ i ∈ s.actfun (m + 1), reprT dd s (m + 1) j i
          = reprT dd s (m + 1) j i * 1 := by
        intro i _
        rw [mul_one]
      have hsecond : (∑ i ∈ s.actfun (m + 1), reprT dd s (m + 1) j i)
          = ∑ mid ∈ dd.allFuncs (m + 1), reprT dd s (m + 1) j mid
              * (if mid ∈ s.actfun (m + 1) then 1 else 0) := by
        have hcong : ∀ mid ∈ dd.allFuncs (m + 1), reprT dd s (m + 1) j mid
            * (if mid ∈ s.actfun (m + 1) then 1 else 0)
            = if mid ∈ s.actfun (m + 1) then reprT dd s (m + 1) j mid else 0 := by
          intro mid _
          by_cases h : mid ∈ s.actfun (m + 1) <;> simp [h]
        rw [Finset.sum_congr rfl hcong, Finset.sum_ite_mem,
          (Finset.inter_eq_right).mpr (actfun_subset_allFuncs hInv (m + 1))]
      rw [hsecond, ← Finset.sum_add_distrib]
      apply Finset.sum_congr rfl
      intro mid _
      show (∑ i ∈ dd.allFuncs m, reprT dd s (m + 1) j mid * truncP dd s m mid i
          * gvec dd s m i) + _ = reprT dd s (m + 1) j mid * gvec dd s (m + 1) mid
      have hfactor : (∑ i ∈ dd.allFuncs m, reprT dd s (m + 1) j mid * truncP dd s m mid i
          * gvec dd s m i)
          = reprT dd s (m + 1) j mid * ∑ i ∈ dd.allFuncs m, truncP dd s m mid i
              * gvec dd s m i := by
        rw [Finset.mul_sum]
        apply Finset.sum_congr rfl
        intro i _
        ring
      rw [hfactor]
      show _ = reprT dd s (m + 1) j mid
        * ((∑ i ∈ dd.allFuncs m, truncP dd s m mid i * gvec dd s m i) +
            (if mid ∈ s.actfun (m + 1) then 1 else 0))
      ring

theorem top_deactfun_empty {dd : MeshData} {s : HSState} (hL : MeshLaws dd)
    (hInv : HSInv dd s) : s.deactfun (s.hm.numLevels - 1) = ∅ := by
  set M := s.hm.numLevels - 1 with hM
  rw [Finset.eq_empty_iff_forall_not_mem]
  intro f hf
  have hds := hInv.deactSupp M f hf
  have hrep := (hInv.repIff M f).mp (Finset.mem_union_right _ hf)
  have hCD : s.hm.deactivated M = ∅ :=
    hm_top_deact_empty hInv.cellInv M (by have := hInv.cellInv.pos; omega)
  obtain ⟨c, hc⟩ := hL.suppNE M f hrep.1
  have hcrep := hrep.2 hc
  rw [hCD, Finset.union_empty] at hcrep
  rw [Finset.eq_empty_iff_forall_not_mem] at hds
  exact hds c (Finset.mem_inter.mpr ⟨hc, hcrep⟩)

theorem gvec_eq_one (dd : MeshData) (hL : MeshLaws dd) (s : HSState) (hInv : HSInv dd s) :
    ∀ m, m ≤ s.hm.numLevels - 1 → ∀ j ∈ dd.allFuncs m, j ∉ s.deactfun m →
      gvec dd s m j = 1 := by
  intro m
  induction m with
  | zero =>
      intro _ j hj hnd
      have hrep0 : s.hm.active 0 ∪ s.hm.deactivated 0 = dd.cells0 := hInv.cellInv.levelZero
      have hjrep : j ∈ s.actfun 0 ∪ s.deactfun 0 := by
        rw [hInv.repIff 0 j]
        refine ⟨hj, ?_⟩
        rw [hrep0]
        have := hL.suppSub 0 j hj
        simpa [allCellsFrom] using this
      have hja : j ∈ s.actfun 0 := by
        rcases Finset.mem_union.mp hjrep with h | h
        · exact h
        · exact absurd h hnd
      show (if j ∈ s.actfun 0 then (1 : ℚ) else 0) = 1
      rw [if_pos hja]
  | succ m ih =>
      intro hm j hj hnd
      by_cases hja : j ∈ s.actfun (m + 1)
      · show (∑ i ∈ dd.allFuncs m, truncP dd s m j i * gvec dd s m i) +
            (if j ∈ s.actfun (m + 1) then (1 : ℚ) else 0) = 1
        rw [if_pos hja, Finset.sum_eq_zero, zero_add]
        intro i _
        rw [truncP, if_pos hja, zero_mul]
      · -- j is not represented on level m+1 at all
        have hjnrep : j ∉ s.actfun (m + 1) ∪ s.deactfun (m + 1) := by
          rw [Finset.mem_union]
          tauto
        show (∑ i ∈ dd.allFuncs m, truncP dd s m j i * gvec dd s m i) +
            (if j ∈ s.actfun (m + 1) then (1 : ℚ) else 0) = 1
        rw [if_neg hja, add_zero]
        have hterm : ∀ i ∈ dd.allFuncs m, truncP dd s m j i * gvec dd s m i
            = dd.P m j i := by
          intro i _
          rw [truncP, if_neg hja]
          by_cases hP : dd.P m j i = 0
          · rw [hP, zero_mul]
          · obtain ⟨hiF, hjF, hsupp⟩ := hL.psupp m i j hP
            have hind : i ∉ s.deactfun m := by
              intro hid
              apply hjnrep
              rw [hInv.repIff (m + 1) j]
              refine ⟨hjF, ?_⟩
              intro c hc
              have hpc : cellParent c ∈ dd.supp m i := by
                have := hsupp hc
                rw [mem_childrenSetF] at this
                exact this
              have hpd : cellParent c ∈ s.hm.deactivated m := by
                have hds := hInv.deactSupp m i hid
                have hrep := ((hInv.repIff m i).mp (Finset.mem_union_right _ hid)).2 hpc
                rcases Finset.mem_union.mp hrep with h | h
                · exfalso
                  rw [Finset.eq_empty_iff_forall_not_mem] at hds
                  exact hds _ (Finset.mem_inter.mpr ⟨hpc, h⟩)
                · exact h
              exact hInv.cellInv.childPresent m _ hpd c (mem_cellChildren_iff.mpr rfl)
            rw [ih (by omega) i hiF hind, mul_one]
        rw [Finset.sum_congr rfl hterm]
        exact hL.prowsum m j hj

/-- C2: for every refinement sequence, `represent_fine(truncate=True)`
applied to the all-ones coefficient vector of length `numdofs` yields the
all-ones fine-level coefficient vector: every row of the matrix sums to
exactly `1` (the THB basis is a partition of unity). -/
theorem represent_fine_truncate_partition_of_unity (dd : MeshData) (hL : MeshLaws dd)
    (disp : Option ℕ) (s : HSState) (h : ReachableHS dd disp s) (j : Cell)
    (hj : j ∈ dd.allFuncs (s.hm.numLevels - 1)) :
    rowSumRF dd s j = 1 := by
  have hInv := reachableHS_inv hL h
  set M := s.hm.numLevels - 1 with hM
  have hL1 : s.hm.numLevels = M + 1 := by
    have := hInv.cellInv.pos
    omega
  rw [rowSumRF, hL1, rowSum_horner dd s hInv M (by omega) j]
  have hTid : ∀ i, reprT dd s M j i = if j = i then 1 else 0 := by
    intro i
    show tmatAux dd s (s.hm.numLevels - 1 - M) j i = _
    rw [show s.hm.numLevels - 1 - M = 0 by omega]
    rfl
  have hcong : ∀ i ∈ dd.allFuncs M, reprT dd s M j i * gvec dd s M i
      = if j = i then gvec dd s M i else 0 := by
    intro i _
    rw [hTid i]
    by_cases h1 : j = i <;> simp [h1]
  rw [Finset.sum_congr rfl hcong, Finset.sum_ite_eq (dd.allFuncs M) j (gvec dd s M),
    if_pos hj]
  refine gvec_eq_one dd hL s hInv M (by omega) j hj ?_
  rw [show s.deactfun M = ∅ from top_deactfun_empty hL hInv]
  exact Finset.not_mem_empty j

/-! ## Disparity grading (claim C3) -/

theorem mem_cellSupportExtension (dd : MeshData) (l k : ℕ) (X : Finset Cell) (cp : Cell) :
    cp ∈ cellSupportExtension dd l X k ↔
      ∃ c ∈ X, ∃ φ, φ ∈ dd.suppIn k (iterParent (l - k) c) ∧ cp ∈ dd.supp k φ := by
  rw [cellSupportExtension, suppSet, Finset.mem_biUnion]
  constructor
  · rintro ⟨φ, hφ, hcp⟩
    rw [suppInSet, Finset.mem_biUnion] at hφ
    obtain ⟨a, ha, hφa⟩ := hφ
    rw [Finset.mem_image] at ha
    obtain ⟨c, hc, rfl⟩ := ha
    exact ⟨c, hc, φ, hφa, hcp⟩
  · rintro ⟨c, hc, φ, hφ, hcp⟩
    refine ⟨φ, ?_, hcp⟩
    rw [suppInSet, Finset.mem_biUnion]
    exact ⟨iterParent (l - k) c, Finset.mem_image_of_mem _ hc, hφ⟩

theorem cellSupportExtension_mono (dd : MeshData) (l k : ℕ) {c : Cell} {X : Finset Cell}
    (hc : c ∈ X) : cellSupportExtension dd l {c} k ⊆ cellSupportExtension dd l X k := by
  intro cp hcp
  rw [mem_cellSupportExtension] at hcp ⊢
  obtain ⟨c0, hc0, rest⟩ := hcp
  rw [Finset.mem_singleton] at hc0
  subst hc0
  exact ⟨c0, hc, rest⟩

theorem cellSupportExtension_anc (dd : MeshData) {l l2 k : ℕ} {c c2 : Cell}
    (h : iterParent (l - k) c = iterParent (l2 - k) c2) :
    cellSupportExtension dd l {c} k = cellSupportExtension dd l2 {c2} k := by
  ext cp
  rw [mem_cellSupportExtension, mem_cellSupportExtension]
  constructor
  · rintro ⟨c0, hc0, φ, hφ, hcp⟩
    rw [Finset.mem_singleton] at hc0
    subst hc0
    exact ⟨c2, Finset.mem_singleton_self c2, φ, h ▸ hφ, hcp⟩
  · rintro ⟨c0, hc0, φ, hφ, hcp⟩
    rw [Finset.mem_singleton] at hc0
    subst hc0
    exact ⟨c, Finset.mem_singleton_self c, φ, h.symm ▸ hφ, hcp⟩

/-- One coarsening step of the support extension: the parent of any cell of
the level-`k` support extension lies in the level-`(k-1)` support extension
(every fine function appears with a nonzero coefficient in the refinement of
some coarse function, and its support is contained in that function's). -/
theorem sext_parent_step (dd : MeshData) (hL : MeshLaws dd) {l k : ℕ} {c cp : Cell}
    (hk : 1 ≤ k) (hkl : k ≤ l) (hcp : cp ∈ cellSupportExtension dd l {c} k) :
    cellParent cp ∈ cellSupportExtension dd l {c} (k - 1) := by
  rw [mem_cellSupportExtension] at hcp
  obtain ⟨c0, hc0, φ, hφin, hcpsupp⟩ := hcp
  rw [Finset.mem_singleton] at hc0
  subst hc0
  have hφ := (hL.galois k _ φ).mp hφin
  obtain ⟨k2, rfl⟩ : ∃ k2, k = k2 + 1 := ⟨k - 1, by omega⟩
  have hsum : (∑ i ∈ dd.allFuncs k2, dd.P k2 φ i) ≠ 0 := by
    rw [hL.prowsum k2 φ hφ.1]
    exact one_ne_zero
  obtain ⟨ψ, hψF, hψP⟩ := Finset.exists_ne_zero_of_sum_ne_zero hsum
  obtain ⟨-, -, hsupp⟩ := hL.psupp k2 ψ φ hψP
  have h1 : cellParent cp ∈ dd.supp k2 ψ := by
    have := hsupp hcpsupp
    rw [mem_childrenSetF] at this
    exact this
  have h2 : cellParent (iterParent (l - (k2 + 1)) c0) ∈ dd.supp k2 ψ := by
    have := hsupp hφ.2
    rw [mem_childrenSetF] at this
    exact this
  have h3 : cellParent (iterParent (l - (k2 + 1)) c0) = iterParent (l - k2) c0 := by
    rw [← iterParent_succ]
    congr 1
    omega
  rw [show k2 + 1 - 1 = k2 from rfl, mem_cellSupportExtension]
  exact ⟨c0, Finset.mem_singleton_self c0, ψ, (hL.galois k2 _ ψ).mpr ⟨hψF, h3 ▸ h2⟩, h1⟩

/-- Closure of a marked dictionary at one level: the plain neighborhood of
the level-`j` marks is itself marked `disp` levels below. -/
def nbClosedAt (dd : MeshData) (s : HSState) (disp : ℕ) (marked : ℕ → Finset Cell)
    (j : ℕ) : Prop :=
  cellNeighborhood dd s disp j (marked j) false ⊆ marked (j - disp)

theorem markRecAux_closure (dd : MeshData) (s : HSState) (disp : ℕ) (hdv : 1 ≤ disp) :
    ∀ fuel l marked, l + 1 ≤ fuel →
      (∀ j, marked j ⊆ markRecAux dd s disp fuel l marked j) ∧
      (∀ j, l - disp < j → markRecAux dd s disp fuel l marked j = marked j) ∧
      nbClosedAt dd s disp (markRecAux dd s disp fuel l marked) l ∧
      (∀ j, markRecAux dd s disp fuel l marked j ≠ marked j →
        nbClosedAt dd s disp (markRecAux dd s disp fuel l marked) j) := by
  intro fuel
  induction fuel with
  | zero => intro l marked hfuel; omega
  | succ fuel ih =>
      intro l marked hfuel
      rw [markRecAux]
      by_cases hnb : cellNeighborhood dd s disp l (marked l) false = ∅
      · rw [if_pos hnb]
        refine ⟨fun j => le_refl _, fun j _ => rfl, ?_, fun j hj => absurd rfl hj⟩
        rw [nbClosedAt, hnb]
        exact Finset.empty_subset _
      · rw [if_neg hnb]
        have hld : disp ≤ l := by
          by_contra hc
          rw [cellNeighborhood, if_pos (by omega)] at hnb
          exact hnb rfl
        set marked1 := Function.update marked (l - disp)
          (marked (l - disp) ∪ cellNeighborhood dd s disp l (marked l) false) with hm1
        have hrec := ih (l - disp) marked1 (by omega)
        obtain ⟨r1, r2, r3, r4⟩ := hrec
        have hm1sub : ∀ j, marked j ⊆ marked1 j := by
          intro j
          by_cases hj : j = l - disp
          · subst hj
            rw [hm1, Function.update_same]
            exact Finset.subset_union_left
          · rw [hm1, Function.update_noteq hj]
        have hm1above : ∀ j, l - disp < j → marked1 j = marked j := by
          intro j hj
          rw [hm1, Function.update_noteq (by omega)]
        refine ⟨?_, ?_, ?_, ?_⟩
        · intro j
          exact le_trans (hm1sub j) (r1 j)
        · intro j hj
          rw [r2 j (by omega), hm1above j hj]
        · -- closure at level l
          rw [nbClosedAt]
          have hsame : markRecAux dd s disp fuel (l - disp) marked1 l = marked l := by
            rw [r2 l (by omega), hm1above l (by omega)]
          rw [hsame]
          refine le_trans ?_ (r1 (l - disp))
          rw [hm1, Function.update_same]
          exact Finset.subset_union_right
        · intro j hj
          by_cases hj1 : markRecAux dd s disp fuel (l - disp) marked1 j = marked1 j
          · -- modified by the update itself: j = l - disp, closed by the cascade
            have hne : marked1 j ≠ marked j := fun he => hj (by rw [hj1, he])
            have hjeq : j = l - disp := by
              by_contra hc
              exact hne (by rw [hm1, Function.update_noteq hc])
            subst hjeq
            exact r3
          · exact r4 j hj1

theorem markRecursive_eq_aux (dd : MeshData) (s : HSState) (disp l : ℕ)
    (marked : ℕ → Finset Cell) :
    markRecursive dd s disp l marked false = markRecAux dd s disp (l + 2) l marked :=
  rfl

theorem markRecursive_closure (dd : MeshData) (s : HSState) (disp : ℕ) (hdv : 1 ≤ disp)
    (l : ℕ) (marked : ℕ → Finset Cell) :
    (∀ j, marked j ⊆ markRecursive dd s disp l marked false j) ∧
    (∀ j, l - disp < j → markRecursive dd s disp l marked false j = marked j) ∧
    nbClosedAt dd s disp (markRecursive dd s disp l marked false) l ∧
    (∀ j, markRecursive dd s disp l marked false j ≠ marked j →
      nbClosedAt dd s disp (markRecursive dd s disp l marked false) j) := by
  rw [markRecursive_eq_aux]
  exact markRecAux_closure dd s disp hdv (l + 2) l marked (by omega)

theorem expandMarked_closed (dd : MeshData) (s : HSState) (disp : ℕ) (hdv : 1 ≤ disp)
    (marked : ℕ → Finset Cell) (L : ℕ) :
    (∀ j, j < L → nbClosedAt dd s disp (expandMarked dd s disp marked L false) j) ∧
    (∀ j, marked j ⊆ expandMarked dd s disp marked L false j) ∧
    (∀ j, L ≤ j → expandMarked dd s disp marked L false j = marked j) := by
  rw [expandMarked]
  induction L with
  | zero =>
      simp only [List.range_zero, List.foldl_nil]
      exact ⟨fun j hj => absurd hj (by omega), fun j => Finset.Subset.refl _,
        fun j _ => by trivial⟩
  | succ n ih =>
      rw [List.range_succ, List.foldl_append, List.foldl_cons, List.foldl_nil]
      set mk := (List.range n).foldl (fun mk l => markRecursive dd s disp l mk false) marked
        with hmk
      obtain ⟨p1, p2, p3⟩ := ih
      obtain ⟨q1, q2, q3, q4⟩ := markRecursive_closure dd s disp hdv n mk
      refine ⟨?_, ?_, ?_⟩
      · intro j hj
        rcases Nat.lt_succ_iff_lt_or_eq.mp hj with hj | hj
        · -- previously closed levels stay closed
          by_cases hch : markRecursive dd s disp n mk false j = mk j
          · rw [nbClosedAt, hch]
            exact le_trans (p1 j hj) (q1 (j - disp))
          · exact q4 j hch
        · subst hj
          exact q3
      · intro j
        exact le_trans (p2 j) (q1 j)
      · intro j hj
        rw [q2 j (by omega), p3 j (by omega)]

/-- Admissibility of an active-cell family: no two active cells whose support
extensions overlap lie more than `dv` levels apart. -/
def Admissible (dd : MeshData) (dv : ℕ) (act : ℕ → Finset Cell) : Prop :=
  ∀ l k, dv + k < l → ∀ c ∈ act l, ∀ cp ∈ act k, cp ∉ cellSupportExtension dd l {c} k

theorem admissible_step (dd : MeshData) (hL : MeshLaws dd) {s : HSState} (dv : ℕ)
    (hdv : 1 ≤ dv) {marked2 : ℕ → Finset Cell} {maxlv : ℕ}
    (hsub : ∀ l, marked2 l ⊆ s.hm.active l)
    (hbd : ∀ l, maxlv < l → marked2 l = ∅)
    (hadm : Admissible dd dv s.hm.active)
    (hclosed : ∀ j, nbClosedAt dd s dv marked2 j) :
    Admissible dd dv (hmRefine s.hm marked2 maxlv).active := by
  intro l k hlk c hc cp hcp hse
  have hAmem := hmRefine_active_mem s.hm marked2 maxlv hbd
  rw [hAmem] at hc hcp
  obtain ⟨hc1, hc2⟩ := hc
  obtain ⟨hcp1, hcp2⟩ := hcp
  rcases hc1 with hcold | ⟨hl0, hcpar⟩
  · rcases hcp1 with hcpold | ⟨hk0, hcppar⟩
    · exact hadm l k hlk c hcold cp hcpold hse
    · obtain ⟨k2, rfl⟩ : ∃ k2, k = k2 + 1 := ⟨k - 1, by omega⟩
      have hstep := @sext_parent_step dd hL l (k2 + 1) c cp
        (by omega) (by omega) hse
      rw [show k2 + 1 - 1 = k2 from rfl] at hstep
      have hpar : cellParent cp ∈ marked2 k2 := by simpa using hcppar
      exact hadm l k2 (by omega) c hcold (cellParent cp) (hsub k2 hpar) hstep
  · obtain ⟨l2, rfl⟩ : ∃ l2, l = l2 + 1 := ⟨l - 1, by omega⟩
    have hm : cellParent c ∈ marked2 l2 := by simpa using hcpar
    have hmact : cellParent c ∈ s.hm.active l2 := hsub l2 hm
    have hanc : iterParent (l2 + 1 - k) c = iterParent (l2 - k) (cellParent c) := by
      rw [← iterParent_succ_inner]
      congr 1
      omega
    have hsame : cellSupportExtension dd (l2 + 1) {c} k
        = cellSupportExtension dd l2 {cellParent c} k := cellSupportExtension_anc dd hanc
    rw [hsame] at hse
    rcases hcp1 with hcpold | ⟨hk0, hcppar⟩
    · by_cases hdeep : dv + k < l2
      · exact hadm l2 k hdeep (cellParent c) hmact cp hcpold hse
      · have hkeq : l2 = k + dv := by omega
        have hnb : cp ∈ cellNeighborhood dd s dv l2 (marked2 l2) false := by
          rw [cellNeighborhood, if_neg (by omega)]
          rw [if_neg (by simp)]
          refine Finset.mem_inter.mpr ⟨?_, ?_⟩
          · rw [show l2 - dv = k by omega]
            exact hcpold
          · exact cellSupportExtension_mono dd l2 (l2 - dv) hm
              (by rw [show l2 - dv = k by omega]; exact hse)
        have hcl := hclosed l2
        rw [nbClosedAt] at hcl
        have : cp ∈ marked2 (l2 - dv) := hcl hnb
        rw [show l2 - dv = k by omega] at this
        exact hcp2 this
    · obtain ⟨k2, rfl⟩ : ∃ k2, k = k2 + 1 := ⟨k - 1, by omega⟩
      have hstep := @sext_parent_step dd hL l2 (k2 + 1) (cellParent c) cp
        (by omega) (by omega) hse
      rw [show k2 + 1 - 1 = k2 from rfl] at hstep
      have hpar2 : cellParent cp ∈ marked2 k2 := by simpa using hcppar
      exact hadm l2 k2 (by omega) (cellParent c) hmact (cellParent cp) (hsub k2 hpar2) hstep

theorem reachableHSNT_admissible (dd : MeshData) (hL : MeshLaws dd) (dv : ℕ)
    (hdv : 1 ≤ dv) {s : HSState} (h : ReachableHSNT dd (some dv) s) :
    Admissible dd dv s.hm.active := by
  induction h with
  | init =>
      intro l k hlk c hc cp hcp hse
      revert hc
      show c ∈ (if l = 0 then dd.cells0 else ∅) → False
      rw [if_neg (by omega)]
      simp
  | step s marked maxlv hr hsub hbd ih =>
      obtain ⟨hsub2, hbd2⟩ := effMarked_sub dd (some dv) s marked maxlv false hsub hbd
      have hclosed : ∀ j, nbClosedAt dd s dv
          (effMarked dd (some dv) s marked maxlv false) j := by
        intro j
        obtain ⟨e1, e2, e3⟩ := expandMarked_closed dd s dv hdv marked
          (max s.hm.numLevels (maxlv + 2))
        by_cases hj : j < max s.hm.numLevels (maxlv + 2)
        · exact e1 j hj
        · rw [nbClosedAt]
          show cellNeighborhood dd s dv j (expandMarked dd s dv marked _ false j) false ⊆ _
          rw [e3 j (by omega), hbd j (by omega), cellNeighborhood_empty_of_empty]
          exact Finset.empty_subset _
      exact admissible_step dd hL dv hdv hsub2 hbd2 ih hclosed

/-! ## A concrete one-dimensional instance (piecewise constants)

Modelled from the spec: the B-spline tensor-product mesh data for degree 0 in
one dimension with two knot spans on level 0.  Cells and basis functions
coincide; each function is supported on exactly its own cell, and each
function refines into its two children with coefficient 1. -/

def monoFuncs (l : ℕ) : Finset Cell := (Finset.range (2 ^ (l + 1))).image (fun i => [i])

theorem mem_monoFuncs {l : ℕ} {f : Cell} :
    f ∈ monoFuncs l ↔ ∃ x, x < 2 ^ (l + 1) ∧ [x] = f := by
  simp [monoFuncs]

theorem monoFuncs_parent {l : ℕ} {j : Cell} (hj : j ∈ monoFuncs (l + 1)) :
    cellParent j ∈ monoFuncs l := by
  rw [mem_monoFuncs] at hj ⊢
  obtain ⟨x, hx, rfl⟩ := hj
  refine ⟨x / 2, ?_, rfl⟩
  have h2 : (2 : ℕ) ^ (l + 1 + 1) = 2 ^ (l + 1) * 2 := pow_succ 2 (l + 1)
  omega

def monoData : MeshData where
  cells0 := {[0], [1]}
  allFuncs := monoFuncs
  supp := fun l f => if f ∈ monoFuncs l then {f} else ∅
  suppIn := fun l c => if c ∈ monoFuncs l then {c} else ∅
  P := fun l j i => if j ∈ monoFuncs (l + 1) ∧ i = cellParent j then 1 else 0

theorem monoAllCells (l : ℕ) : allCellsFrom ({[0], [1]} : Finset Cell) l = monoFuncs l := by
  induction l with
  | zero => decide
  | succ n ih =>
      ext d
      rw [allCellsFrom_succ, ih, mem_childrenSetF]
      constructor
      · intro hp
        rw [mem_monoFuncs] at hp
        obtain ⟨x, hx, hpx⟩ := hp
        rcases d with - | ⟨y, tail⟩
        · exact absurd hpx (by simp [cellParent])
        · rcases tail with - | ⟨z, t⟩
          · have hy : y / 2 = x := by
              have hred : cellParent [y] = [y / 2] := rfl
              rw [hred] at hpx
              simpa using hpx.symm
            rw [mem_monoFuncs]
            refine ⟨y, ?_, rfl⟩
            have h2 : (2 : ℕ) ^ (n + 1 + 1) = 2 ^ (n + 1) * 2 := pow_succ 2 (n + 1)
            omega
          · exact absurd hpx (by simp [cellParent])
      · intro hd
        rw [mem_monoFuncs] at hd
        obtain ⟨y, hy, rfl⟩ := hd
        exact monoFuncs_parent (by rw [mem_monoFuncs]; exact ⟨y, hy, rfl⟩)

theorem monoLaws : MeshLaws monoData := by
  refine ⟨?_, ?_, ?_, ?_, ?_⟩
  · intro l c f
    show f ∈ (if c ∈ monoFuncs l then ({c} : Finset Cell) else ∅) ↔
      f ∈ monoFuncs l ∧ c ∈ (if f ∈ monoFuncs l then ({f} : Finset Cell) else ∅)
    by_cases hc : c ∈ monoFuncs l
    · by_cases hf : f ∈ monoFuncs l
      · simp [hc, hf, eq_comm]
      · simp only [if_pos hc, if_neg hf, Finset.mem_singleton, Finset.not_mem_empty,
          and_false, iff_false]
        intro he
        exact hf (he ▸ hc)
    · by_cases hf : f ∈ monoFuncs l
      · simp only [if_neg hc, if_pos hf, Finset.not_mem_empty, Finset.mem_singleton,
          false_iff, not_and]
        intro _ he
        exact hc (he ▸ hf)
      · simp [hc, hf]
  · intro l f hf
    have hf2 : f ∈ monoFuncs l := hf
    show (if f ∈ monoFuncs l then ({f} : Finset Cell) else ∅) ⊆ _
    rw [if_pos hf2]
    intro x hx
    rw [Finset.mem_singleton] at hx
    subst hx
    show x ∈ allCellsFrom ({[0], [1]} : Finset Cell) l
    rw [monoAllCells]
    exact hf2
  · intro l f hf
    have hf2 : f ∈ monoFuncs l := hf
    show (if f ∈ monoFuncs l then ({f} : Finset Cell) else ∅).Nonempty
    rw [if_pos hf2]
    exact ⟨f, Finset.mem_singleton_self f⟩
  · intro l j hj
    have hj2 : j ∈ monoFuncs (l + 1) := hj
    show (∑ i ∈ monoFuncs l,
        if j ∈ monoFuncs (l + 1) ∧ i = cellParent j then (1 : ℚ) else 0) = 1
    have hcong : ∀ i ∈ monoFuncs l,
        (if j ∈ monoFuncs (l + 1) ∧ i = cellParent j then (1 : ℚ) else 0)
          = if i = cellParent j then (fun _ : Cell => (1 : ℚ)) i else 0 := by
      intro i hi
      simp [hj2]
    rw [Finset.sum_congr rfl hcong,
      Finset.sum_ite_eq' (monoFuncs l) (cellParent j) (fun _ : Cell => (1 : ℚ)),
      if_pos (monoFuncs_parent hj2)]
  · intro l i j hP
    have hcond : j ∈ monoFuncs (l + 1) ∧ i = cellParent j := by
      by_contra hc
      exact hP (if_neg hc)
    obtain ⟨hj, rfl⟩ := hcond
    refine ⟨monoFuncs_parent hj, hj, ?_⟩
    show (if j ∈ monoFuncs (l + 1) then ({j} : Finset Cell) else ∅) ⊆
      childrenSetF (if cellParent j ∈ monoFuncs l then ({cellParent j} : Finset Cell) else ∅)
    rw [if_pos hj, if_pos (monoFuncs_parent hj)]
    intro x hx
    rw [Finset.mem_singleton] at hx
    subst hx
    rw [mem_childrenSetF, Finset.mem_singleton]

/-- **C3** (amended): for an `HSpace` with finite disparity bound `d ≥ 1`, after
any sequence of `refine` calls with `truncate=False` in which each marked cell
is active at call time, no two active cells whose supports overlap (the coarse
cell lies in the support extension of the fine one) differ in level by more
than `d`.  The original unrestricted claim is false for `truncate=True` calls,
see the counterexample below. -/
theorem hspace_refine_disparity_grading (dd : MeshData) (hL : MeshLaws dd)
    (dv : ℕ) (hdv : 1 ≤ dv) (s : HSState) (h : ReachableHSNT dd (some dv) s)
    (l k : ℕ) (hlk : dv + k < l) (c : Cell) (hc : c ∈ s.hm.active l)
    (cp : Cell) (hcp : cp ∈ s.hm.active k) :
    cp ∉ cellSupportExtension dd l {c} k :=
  reachableHSNT_admissible dd hL dv hdv h l k hlk c hc cp hcp

def wM3a : ℕ → Finset Cell := fun l => if l = 0 then {[0]} else ∅

def wM3b : ℕ → Finset Cell := fun l => if l = 1 then {[0]} else ∅

def wS3a : HSState := hsRefine monoData (some 1) (hsInit monoData) wM3a 0 false

def wS3b : HSState := hsRefine monoData (some 1) wS3a wM3b 1 false

theorem wM3a_sub : ∀ l, wM3a l ⊆ (hsInit monoData).hm.active l := by
  intro l
  match l with
  | 0 => decide
  | l + 1 =>
      rw [show wM3a (l + 1) = ∅ by rw [wM3a]; simp]
      exact Finset.empty_subset _

theorem wM3a_bd : ∀ l, 0 < l → wM3a l = ∅ := by
  intro l hl
  rw [wM3a]
  simp only [if_neg (by omega : ¬ l = 0)]

theorem wM3b_sub : ∀ l, wM3b l ⊆ wS3a.hm.active l := by
  intro l
  match l with
  | 0 => exact Finset.empty_subset _
  | 1 => decide
  | l + 2 =>
      rw [show wM3b (l + 2) = ∅ by rw [wM3b]; simp]
      exact Finset.empty_subset _

theorem wM3b_bd : ∀ l, 1 < l → wM3b l = ∅ := by
  intro l hl
  rw [wM3b]
  simp only [if_neg (by omega : ¬ l = 1)]

theorem wS3b_reachable : ReachableHSNT monoData (some 1) wS3b :=
  ReachableHSNT.step wS3a wM3b 1
    (ReachableHSNT.step (hsInit monoData) wM3a 0 ReachableHSNT.init wM3a_sub wM3a_bd)
    wM3b_sub wM3b_bd

theorem hspace_refine_disparity_grading_witness :
    1 ≤ 1 ∧ 1 + 0 < 2 ∧ [0] ∈ wS3b.hm.active 2 ∧ [1] ∈ wS3b.hm.active 0 ∧
      [1] ∉ cellSupportExtension monoData 2 {[0]} 0 :=
  ⟨by decide, by decide, by decide, by decide,
    hspace_refine_disparity_grading monoData monoLaws 1 (by decide) wS3b wS3b_reachable
      2 0 (by decide) [0] (by decide) [1] (by decide)⟩

/-! ## A concrete one-dimensional degree-1 instance

Modelled from the spec: degree-1 B-splines on a uniform open knot vector with
two knot spans on level 0, so level `l` has `2^(l+1)` spans and `2^(l+1) + 1`
basis functions; function `f` is supported on the spans `[f-1, f]` clipped to
the mesh, and span `c` supports the functions `{c, c+1}`.  The prolongation is
irrelevant for the counterexample below and is left at zero. -/

def deg1Data : MeshData where
  cells0 := {[0], [1]}
  allFuncs := fun l => (Finset.range (2 ^ (l + 1) + 1)).image (fun i => [i])
  supp := fun l f =>
    match f with
    | [x] => if x < 2 ^ (l + 1) + 1 then
        (Finset.Icc (x - 1) (min x (2 ^ (l + 1) - 1))).image (fun i => [i])
      else ∅
    | _ => ∅
  suppIn := fun l c =>
    match c with
    | [x] => if x < 2 ^ (l + 1) then (Finset.Icc x (x + 1)).image (fun i => [i]) else ∅
    | _ => ∅
  P := fun _ _ _ => 0

/-- The state of the degree-1 space after `refine({0: {(0,)}}, truncate=True)`
followed by `refine({1: {(0,)}}, truncate=True)` with disparity 1; both marked
cells are active at call time. -/
def cexS3 : HSState :=
  hsRefine deg1Data (some 1)
    (hsRefine deg1Data (some 1) (hsInit deg1Data) (fun l => if l = 0 then {[0]} else ∅)
      0 true)
    (fun l => if l = 1 then {[0]} else ∅) 1 true

/-- Counterexample to the unrestricted C3 claim: with `truncate=True` the
neighborhood cascade misses a coarse neighbor, leaving an active level-2 cell
whose support extension contains an active level-0 cell although the disparity
bound is 1.  Both refine calls only marked cells active at call time. -/
theorem hspace_refine_disparity_grading_cex :
    ([0] : Cell) ∈ (fun l => if l = 0 then ({[0]} : Finset Cell) else ∅) 0 ∧
    (fun l => if l = 0 then ({[0]} : Finset Cell) else ∅) 0 ⊆ (hsInit deg1Data).hm.active 0 ∧
    (fun l => if l = 1 then ({[0]} : Finset Cell) else ∅) 1 ⊆
      (hsRefine deg1Data (some 1) (hsInit deg1Data)
        (fun l => if l = 0 then {[0]} else ∅) 0 true).hm.active 1 ∧
    [0] ∈ cexS3.hm.active 2 ∧ [1] ∈ cexS3.hm.active 0 ∧ 1 + 0 < 2 ∧
    [1] ∈ cellSupportExtension deg1Data 2 {[0]} 0 := by
  decide

/-! ## The concrete two-dimensional degree-3 instance of the regression test

Modelled from the spec: tensor-product B-splines of degree 3 in both axes on
uniform open knot vectors with 3 knot spans per axis on level 0, so level `l`
has `3 * 2^l` spans and `3 * 2^l + 3` basis functions per axis; a function
`(f1, f2)` is supported on the spans `[f1-3, f1] x [f2-3, f2]` clipped to the
mesh, and a span `(c1, c2)` supports the functions `[c1, c1+3] x [c2, c2+3]`.
The prolongation is not needed for the counts and is left at zero. -/

def k2dSpans (l : ℕ) : ℕ := 3 * 2 ^ l

def k2dEmb : ℕ × ℕ ↪ Cell :=
  ⟨fun p => [p.1, p.2], by
    intro p q h
    simp only [List.cons.injEq, and_true] at h
    exact Prod.ext h.1 h.2⟩

def k2dPairs (a b : Finset ℕ) : Finset Cell := (a ×ˢ b).map k2dEmb

def k2dData : MeshData where
  cells0 := k2dPairs (Finset.range 3) (Finset.range 3)
  allFuncs := fun l =>
    k2dPairs (Finset.range (k2dSpans l + 3)) (Finset.range (k2dSpans l + 3))
  supp := fun l f =>
    match f with
    | [x, y] => if x < k2dSpans l + 3 ∧ y < k2dSpans l + 3 then
        k2dPairs (Finset.Icc (x - 3) (min x (k2dSpans l - 1)))
          (Finset.Icc (y - 3) (min y (k2dSpans l - 1)))
      else ∅
    | _ => ∅
  suppIn := fun l c =>
    match c with
    | [x, y] => if x < k2dSpans l ∧ y < k2dSpans l then
        k2dPairs (Finset.Icc x (x + 3)) (Finset.Icc y (y + 3))
      else ∅
    | _ => ∅
  P := fun _ _ _ => 0

def mk4a : ℕ → Finset Cell :=
  fun l => if l = 0 then {[0, 0], [0, 1], [1, 0], [1, 1], [0, 2]} else ∅

def mk4b : ℕ → Finset Cell :=
  fun l => if l = 1 then {[0, 0], [0, 1], [2, 0], [1, 0], [1, 1]} else ∅

/-- The state after the two refine calls of the regression test
(`disparity = inf`, `truncate` irrelevant for the counts). -/
def wS4 : HSState :=
  hsRefine k2dData none (hsRefine k2dData none (hsInit k2dData) mk4a 0 false) mk4b 1 false

/-- `HSpace.numdofs`: total number of active functions over all levels. -/
def hsNumDofs (s : HSState) : ℕ := ∑ l ∈ Finset.range s.hm.numLevels, (s.actfun l).card

/-- Shape of the matrix returned by `represent_fine`: one row per basis
function of the finest tensor mesh, one column per active hierarchical
function. -/
def representFineShape (dd : MeshData) (s : HSState) : ℕ × ℕ :=
  ((dd.allFuncs (s.hm.numLevels - 1)).card, hsNumDofs s)

set_option maxRecDepth 100000
set_option maxHeartbeats 4000000

/-- **C4**: starting from the degree-3, 3-interval 2D space (36 functions, one
level, all active), `refine({0: [(0,0),(0,1),(1,0),(1,1),(0,2)]})` followed by
`refine({1: [(0,0),(0,1),(2,0),(1,0),(1,1)]})` yields 3 levels, active counts
(28, 21, 20), deactivated counts (8, 5, 0), `numdofs = 69`, and a
`represent_fine` matrix of shape (225, 69). -/
theorem hspace_regression_scenario :
    ((hsInit k2dData).actfun 0).card = 36 ∧
    wS4.hm.numLevels = 3 ∧
    ((wS4.actfun 0).card, (wS4.actfun 1).card, (wS4.actfun 2).card) = (28, 21, 20) ∧
    ((wS4.deactfun 0).card, (wS4.deactfun 1).card, (wS4.deactfun 2).card) = (8, 5, 0) ∧
    hsNumDofs wS4 = 69 ∧
    representFineShape k2dData wS4 = (225, 69) := by
  decide

/-! ## Claim C8: cache invalidation in `HSpace.refine` -/

/-- Cached state of an `HSpace`: the core state plus the lazily cached derived
quantities.  `ravelActfun` models `__ravel_actfun` (filled by
`active_indices`); `indexDirichlet` stands for the four fields that
`_clear_cache` does reset (`__index_dirichlet`, `__ravel_global`,
`__ravel_dirichlet`, `__smooth_dirichlet`). -/
structure CachedHS where
  core : HSState
  ravelActfun : Option (List (Finset Cell))
  indexDirichlet : Option (List (Finset Cell))

/-- `_ravel_indices(self.actfun)`: the per-level tuple of raveled active
function indices; raveling each level is a bijection on indices, so the
per-level sets themselves are kept. -/
def actPayload (s : HSState) : List (Finset Cell) :=
  (List.range s.hm.numLevels).map s.actfun

/-- `HSpace._clear_cache`: resets `__index_dirichlet`, `__ravel_global`,
`__ravel_dirichlet` and `__smooth_dirichlet` — and nothing else; in
particular `__ravel_actfun` is left as it is. -/
def clearCache (c : CachedHS) : CachedHS :=
  { c with indexDirichlet := none }

def cachedInit (dd : MeshData) : CachedHS :=
  clearCache ⟨hsInit dd, none, none⟩

/-- `HSpace.active_indices()`: recompute and store the raveled active
indices, returning them. -/
def activeIndicesC (c : CachedHS) : CachedHS × List (Finset Cell) :=
  (⟨c.core, some (actPayload c.core), c.indexDirichlet⟩, actPayload c.core)

/-- The `ravel_actfun` property: the cached value if present, else recompute
via `active_indices`. -/
def ravelActfunC (c : CachedHS) : CachedHS × List (Finset Cell) :=
  match c.ravelActfun with
  | some v => (c, v)
  | none => activeIndicesC c

/-- `HSpace.refine` on the cached state: refine the core state, then call
`_clear_cache`. -/
def refineC (dd : MeshData) (disp : Option ℕ) (c : CachedHS)
    (marked : ℕ → Finset Cell) (maxlv : ℕ) (tr : Bool) : CachedHS :=
  clearCache ⟨hsRefine dd disp c.core marked maxlv tr, c.ravelActfun, c.indexDirichlet⟩

/-- **C8** (violated — code bug): reading `ravel_actfun` (which fills the
cache via `active_indices`), then calling `refine`, then reading
`ravel_actfun` again returns the tuple computed from the pre-refinement
state, which differs from the recomputed post-refinement value, because
`_clear_cache` does not reset `__ravel_actfun`. -/
theorem refine_cache_invalidation_cex :
    (let c0 := (ravelActfunC (cachedInit monoData)).1
     let c1 := refineC monoData none c0 (fun l => if l = 0 then {[0]} else ∅) 0 false
     (ravelActfunC c1).2 = actPayload (cachedInit monoData).core ∧
       (ravelActfunC c1).2 ≠ actPayload c1.core) := by
  decide

theorem represent_fine_truncate_partition_of_unity_witness :
    rowSumRF monoData (hsRefine monoData none (hsInit monoData) wM3a 0 false) [0] = 1 :=
  represent_fine_truncate_partition_of_unity monoData monoLaws none
    (hsRefine monoData none (hsInit monoData) wM3a 0 false)
    (ReachableHS.step (hsInit monoData) wM3a 0 false ReachableHS.init wM3a_sub wM3a_bd)
    [0] (by decide)

theorem refine_function_deactivation_iff_witness :
    ([0] ∈ (hsRefine monoData none (hsInit monoData) wM3a 0 false).deactfun 0 ↔
      monoData.supp 0 [0] ∩
        (hsRefine monoData none (hsInit monoData) wM3a 0 false).hm.active 0 = ∅) :=
  refine_function_deactivation_iff monoData monoLaws none (hsInit monoData)
    ReachableHS.init wM3a 0 false wM3a_sub wM3a_bd 0 [0] (by decide)
